import Mathlib

/-!
Verification of the parameterized-selector cache library
(`createParameterizedSelector` and the derived selector builders from
`src/utils/selectorUtils.ts`, plus the pagination selector body).

The JavaScript code is shallowly embedded:

* JavaScript argument values are modelled by the inductive type `Value`,
  restricted to the plain-data variants exercised by the specification's
  testable properties (null, undefined, booleans, integer numbers, strings,
  functions, arrays and plain objects).  Host objects (`Map`, `Set`, `Date`,
  `RegExp`, `Error`, typed arrays) are not representable; the corresponding
  replacer branches of the key encoder are therefore not modelled.
* JavaScript numbers are modelled as `Int` for the finite values (all
  timestamps and sizes in the claims are integral, and distinct finite
  numbers always have distinct decimal renderings), together with the three
  non-finite numbers `NaN`, `Infinity` and `-Infinity` as explicit variants:
  `JSON.stringify` collapses the non-finite numbers to `null`, a collision
  the key-distinctness analysis must account for.
* The factory's mutable closure state (`selectorCache`, `keyUsage`,
  `totalHits`, `totalMisses`, `totalExecutionTime`) becomes the record
  `FactoryState`, and every operation is a pure state-passing function.
* `JSON.stringify` with the source's replacer becomes `encVal`/`encList`,
  `JSON.parse` becomes the executable parser `jsonParse`.
* The inner `createSelector` memoizer (reselect semantics: recompute when the
  state argument is not reference-identical to the last one, and keep the old
  result object when `resultEqualityCheck` accepts the recomputation) becomes
  `innerCall` acting on the entry's `memo` field.
* A wrapped selector that can throw is modelled as a function into
  `Except E Result`; exceptions propagate as `Except.error`.
-/

/-- A JavaScript value, restricted to the plain-data variants used by the
selector-cache claims.  Numbers are the integers (`vint`) plus the three
non-finite values `NaN`, `Infinity` and `-Infinity` (`vnan`, `vinf`,
`vneginf`), which `typeof` still classifies as `number` but which
`JSON.stringify` serializes as `null`.  `vfunc` carries the function's
`name` (empty string for an anonymous function) and its source text
(`toString()`).  `vobj` keeps its fields in property insertion order, as
`Object.keys` would report them. -/
inductive Value where
  | vnull
  | vundef
  | vbool (b : Bool)
  | vint (n : Int)
  | vnan
  | vinf
  | vneginf
  | vstr (s : String)
  | vfunc (name src : String)
  | varr (elems : List Value)
  | vobj (fields : List (String × Value))

/-- The decimal digit character for `d < 10`. -/
def digitChar (d : Nat) : Char :=
  match d with
  | 0 => '0' | 1 => '1' | 2 => '2' | 3 => '3' | 4 => '4'
  | 5 => '5' | 6 => '6' | 7 => '7' | 8 => '8' | _ => '9'

/-- Decimal digits (most significant first) of a natural number, computed
with explicit fuel so that the recursion is structural; the fuel `n + 1`
used by `natDecDigits` always suffices. -/
def natDecDigitsAux : Nat → Nat → List Char
  | 0, _ => []
  | fuel + 1, n =>
    if n < 10 then [digitChar n]
    else natDecDigitsAux fuel (n / 10) ++ [digitChar (n % 10)]

/-- Decimal digits (most significant first) of a natural number, as produced
by JavaScript's decimal rendering of a nonnegative integer. -/
def natDecDigits (n : Nat) : List Char := natDecDigitsAux (n + 1) n

/-- Decimal rendering of a natural number. -/
def natDec (n : Nat) : String := String.mk (natDecDigits n)

/-- Decimal rendering of an integer, as `String(n)` / `JSON.stringify(n)`
produce for an integer-valued JavaScript number. -/
def intDec (i : Int) : String :=
  if i < 0 then "-" ++ natDec i.natAbs else natDec i.natAbs

/-- The hexadecimal digit character for `d < 16` (lowercase, as produced by
`JSON.stringify` control-character escapes). -/
def hexChar (d : Nat) : Char :=
  match d with
  | 0 => '0' | 1 => '1' | 2 => '2' | 3 => '3' | 4 => '4'
  | 5 => '5' | 6 => '6' | 7 => '7' | 8 => '8' | 9 => '9'
  | 10 => 'a' | 11 => 'b' | 12 => 'c' | 13 => 'd' | 14 => 'e' | _ => 'f'

/-- JSON string-escape of one character, per the `JSON.stringify`
serialization of strings. -/
def escChar (c : Char) : List Char :=
  if c = '"' then ['\\', '"']
  else if c = '\\' then ['\\', '\\']
  else if c = '\x08' then ['\\', 'b']
  else if c = '\x0c' then ['\\', 'f']
  else if c = '\n' then ['\\', 'n']
  else if c = '\r' then ['\\', 'r']
  else if c = '\t' then ['\\', 't']
  else if c.toNat < 32 then ['\\', 'u', '0', '0', hexChar (c.toNat / 16), hexChar (c.toNat % 16)]
  else [c]

/-- JSON string-escape of a character list. -/
def escList : List Char → List Char
  | [] => []
  | c :: cs => escChar c ++ escList cs

/-- JSON quoted-string form of a string (`JSON.stringify(s)`). -/
def jsonQuote (s : String) : String :=
  String.mk ('"' :: (escList s.data ++ ['"']))

/-- Join a list of strings with commas (array/object member separator in
compact `JSON.stringify` output, `Array.prototype.join(",")`). -/
def commaJoin : List String → String
  | [] => ""
  | [s] => s
  | s :: rest => s ++ "," ++ commaJoin rest

/-- The string the source's replacer substitutes for a function value:
`"__fn_" + (name || 'anonymous') + "_" + toString().slice(0, 100)`. -/
def fnMarker (name src : String) : String :=
  "__fn_" ++ (if name = "" then "anonymous" else name) ++ "_" ++ src.take 100

mutual
/-- Serialization (`JSON.stringify`) of one value under the source's replacer
(`getCacheKeyForParams`): `none` models a value that serializes to nothing
(`undefined`, which is dropped from objects and rendered `null` inside
arrays); functions are replaced by their `fnMarker` string. -/
def encVal : Value → Option String
  | .vnull => some "null"
  | .vundef => none
  | .vbool b => some (cond b "true" "false")
  | .vint n => some (intDec n)
  | .vnan => some "null"
  | .vinf => some "null"
  | .vneginf => some "null"
  | .vstr s => some (jsonQuote s)
  | .vfunc name src => some (jsonQuote (fnMarker name src))
  | .varr es => some ("[" ++ commaJoin (encList es) ++ "]")
  | .vobj fs => some ("\x7b" ++ commaJoin (encFields fs) ++ "\x7d")

/-- Serialized forms of array elements (an element that serializes to
nothing becomes `null`). -/
def encList : List Value → List String
  | [] => []
  | v :: vs => ((encVal v).getD "null") :: encList vs

/-- Serialized `key:value` members of an object (members whose value
serializes to nothing are dropped). -/
def encFields : List (String × Value) → List String
  | [] => []
  | (k, v) :: fs =>
    match encVal v with
    | some ev => (jsonQuote k ++ ":" ++ ev) :: encFields fs
    | none => encFields fs
end

/-- The structural cache key of an argument tuple: `JSON.stringify(params,
replacer)` from `getCacheKeyForParams`, where `params` is the argument
array.  In this model of plain-data values serialization never throws (the
`try` branch always succeeds; the fallback is modelled separately by
`fallbackKeyForParams`). -/
def getCacheKeyForParams (params : List Value) : String :=
  "[" ++ commaJoin (encList params) ++ "]"

/-- One argument's coarse fallback encoding, from the `catch` branch of
`getCacheKeyForParams`: `null`, `undefined` and functions are special-cased,
any other `typeof === 'object'` value (plain objects, and arrays whose
`Object.keys` are their index strings) becomes `"obj_"` plus its top-level
key names joined by `"_"` in their own order, and everything else is
`String(value)`. -/
def fallbackOne : Value → String
  | .vnull => "null"
  | .vundef => "undefined"
  | .vfunc name _ => "fn_" ++ (if name = "" then "anonymous" else name)
  | .vobj fs => "obj_" ++ String.intercalate "_" (fs.map Prod.fst)
  | .varr es => "obj_" ++ String.intercalate "_" ((List.range es.length).map natDec)
  | .vbool b => cond b "true" "false"
  | .vint n => intDec n
  | .vnan => "NaN"
  | .vinf => "Infinity"
  | .vneginf => "-Infinity"
  | .vstr s => s

/-- The fallback cache key: per-argument fallback encodings joined by `"|"`. -/
def fallbackKeyForParams (params : List Value) : String :=
  String.intercalate "|" (params.map fallbackOne)

/-- Code-unit-wise lexicographic comparison of character lists, as the
default JavaScript string ordering compares strings. -/
def charListLe : List Char → List Char → Bool
  | [], _ => true
  | _ :: _, [] => false
  | a :: as, b :: bs =>
    if a.toNat < b.toNat then true
    else if b.toNat < a.toNat then false
    else charListLe as bs

/-- Lexicographic string comparison. -/
def strLe (a b : String) : Bool := charListLe a.data b.data

/-- Insert a string into a sorted list of strings. -/
def insertSorted (s : String) : List String → List String
  | [] => [s]
  | t :: ts => if strLe s t then s :: t :: ts else t :: insertSorted s ts

/-- Sort a list of strings (insertion sort by the lexicographic order). -/
def sortStrings (l : List String) : List String := l.foldr insertSorted []

/-- One argument's fallback encoding as the specification claims it: the
claim says an object maps to `"obj_"` plus its `sorted` top-level key names
joined by `"_"`, and a function to `"fn_"` plus its name. -/
def fallbackOneClaim : Value → String
  | .vnull => "null"
  | .vundef => "undefined"
  | .vfunc name _ => "fn_" ++ name
  | .vobj fs => "obj_" ++ String.intercalate "_" (sortStrings (fs.map Prod.fst))
  | .varr es => "obj_" ++ String.intercalate "_" (sortStrings ((List.range es.length).map natDec))
  | .vbool b => cond b "true" "false"
  | .vint n => intDec n
  | .vnan => "NaN"
  | .vinf => "Infinity"
  | .vneginf => "-Infinity"
  | .vstr s => s

/-- The fallback cache key as the specification claims it. -/
def fallbackKeyClaim (params : List Value) : String :=
  String.intercalate "|" (params.map fallbackOneClaim)

/-- One argument's fallback encoding as amended: identical to the claim's
per-type rules except that an object's top-level key names are joined in the
object's own property order (not sorted), and a nameless function falls back
to the name `anonymous`. -/
def fallbackOneAmended (v : Value) : String :=
  match v with
  | .vnull => "null"
  | .vundef => "undefined"
  | .vfunc name _ => if name = "" then "fn_anonymous" else "fn_" ++ name
  | .vobj fs => "obj_" ++ String.intercalate "_" (fs.map (fun kv => kv.1))
  | .varr es => "obj_" ++ String.intercalate "_" ((List.range es.length).map natDec)
  | .vbool b => if b then "true" else "false"
  | .vint n => intDec n
  | .vnan => "NaN"
  | .vinf => "Infinity"
  | .vneginf => "-Infinity"
  | .vstr s => s

/-- The amended fallback cache key. -/
def fallbackKeyAmended (params : List Value) : String :=
  String.intercalate "|" (params.map fallbackOneAmended)

/-- The opening-brace character (used instead of a brace literal). -/
def braceOpen : Char := Char.ofNat 123

/-- The closing-brace character (used instead of a brace literal). -/
def braceClose : Char := Char.ofNat 125

/-- JSON insignificant whitespace. -/
def isJsonWS (c : Char) : Bool :=
  c = ' ' || c = '\n' || c = '\r' || c = '\t'

/-- Skip JSON insignificant whitespace. -/
def skipWS : List Char → List Char
  | [] => []
  | c :: cs => if isJsonWS c then skipWS cs else c :: cs

/-- Is this a decimal digit character? -/
def isDigitChar (c : Char) : Bool := '0' ≤ c && c ≤ '9'

/-- Numeric value of a decimal digit character. -/
def digitVal (c : Char) : Nat := c.toNat - 48

/-- Numeric value of a hexadecimal digit character, if any. -/
def hexVal (c : Char) : Option Nat :=
  if '0' ≤ c && c ≤ '9' then some (c.toNat - 48)
  else if 'a' ≤ c && c ≤ 'f' then some (c.toNat - 87)
  else if 'A' ≤ c && c ≤ 'F' then some (c.toNat - 55)
  else none

/-- Consume the leading run of decimal digits. -/
def spanDigits : List Char → List Char × List Char
  | [] => ([], [])
  | c :: cs =>
    if isDigitChar c then
      let (ds, rest) := spanDigits cs
      (c :: ds, rest)
    else ([], c :: cs)

/-- Natural-number value of a digit list (most significant first). -/
def digitsVal (ds : List Char) : Nat :=
  ds.foldl (fun a c => 10 * a + digitVal c) 0

/-- Parse the remainder of a JSON string literal (after the opening quote),
returning the decoded characters and the unconsumed input.  Escape sequences
are decoded per JSON; a `\uXXXX` escape outside the basic range (a surrogate
half) is rejected, a modelling restriction that no key produced by the
encoder exercises. -/
def parseStrChars : List Char → Option (List Char × List Char)
  | [] => none
  | '"' :: rest => some ([], rest)
  | '\\' :: 'u' :: h1 :: h2 :: h3 :: h4 :: rest => do
    let a ← hexVal h1
    let b ← hexVal h2
    let c ← hexVal h3
    let d ← hexVal h4
    let n := ((a * 16 + b) * 16 + c) * 16 + d
    if n < 0xd800 then
      let (cs, rest') ← parseStrChars rest
      some (Char.ofNat n :: cs, rest')
    else none
  | '\\' :: e :: rest => do
    let c ←
      if e = '"' then some '"'
      else if e = '\\' then some '\\'
      else if e = '/' then some '/'
      else if e = 'b' then some '\x08'
      else if e = 'f' then some '\x0c'
      else if e = 'n' then some '\n'
      else if e = 'r' then some '\r'
      else if e = 't' then some '\t'
      else none
    let (cs, rest') ← parseStrChars rest
    some (c :: cs, rest')
  | c :: rest =>
    if c.toNat < 32 then none
    else do
      let (cs, rest') ← parseStrChars rest
      some (c :: cs, rest')

/-- Parse a JSON integer literal's digits (after any minus sign): digit run
with no redundant leading zero, not followed by a fraction or exponent (the
model represents numbers as integers; fractional and exponent forms fall
outside it and are rejected rather than approximated). -/
def parseNatPart (cs : List Char) : Option (Nat × List Char) :=
  match spanDigits cs with
  | ([], _) => none
  | (d :: ds, rest) =>
    if d = '0' && ds ≠ [] then none
    else
      match rest with
      | '.' :: _ => none
      | 'e' :: _ => none
      | 'E' :: _ => none
      | _ => some (digitsVal (d :: ds), rest)

mutual
/-- Fuel-bounded parser for a JSON value (`JSON.parse`), over the `Value`
model.  The input is assumed whitespace-skipped at the start. -/
def parseValue : Nat → List Char → Option (Value × List Char)
  | 0, _ => none
  | _ + 1, 'n' :: 'u' :: 'l' :: 'l' :: rest => some (.vnull, rest)
  | _ + 1, 't' :: 'r' :: 'u' :: 'e' :: rest => some (.vbool true, rest)
  | _ + 1, 'f' :: 'a' :: 'l' :: 's' :: 'e' :: rest => some (.vbool false, rest)
  | _ + 1, '"' :: rest => do
    let (cs, rest') ← parseStrChars rest
    some (.vstr (String.mk cs), rest')
  | _ + 1, '-' :: rest => do
    let (n, rest') ← parseNatPart rest
    some (.vint (-(n : Int)), rest')
  | fuel + 1, c :: rest =>
    if c = '[' then
      parseArrayBody fuel (skipWS rest)
    else if c = braceOpen then
      parseObjectBody fuel (skipWS rest)
    else if isDigitChar c then do
      let (n, rest') ← parseNatPart (c :: rest)
      some (.vint (n : Int), rest')
    else none
  | _ + 1, [] => none

/-- Parse an array body after the opening bracket (whitespace-skipped). -/
def parseArrayBody : Nat → List Char → Option (Value × List Char)
  | 0, _ => none
  | _ + 1, ']' :: rest => some (.varr [], rest)
  | fuel + 1, cs => do
    let (v, rest) ← parseValue fuel cs
    parseArrayItems fuel [v] (skipWS rest)

/-- Parse the continuation of an array after one or more elements. -/
def parseArrayItems : Nat → List Value → List Char → Option (Value × List Char)
  | 0, _, _ => none
  | _ + 1, acc, ']' :: rest => some (.varr acc, rest)
  | fuel + 1, acc, ',' :: rest => do
    let (v, rest') ← parseValue fuel (skipWS rest)
    parseArrayItems fuel (acc ++ [v]) (skipWS rest')
  | _ + 1, _, _ => none

/-- Parse an object body after the opening brace (whitespace-skipped). -/
def parseObjectBody : Nat → List Char → Option (Value × List Char)
  | 0, _ => none
  | fuel + 1, c :: rest =>
    if c = braceClose then some (.vobj [], rest)
    else if c = '"' then do
      let (k, rest') ← parseStrChars rest
      parseObjectMember fuel [] (String.mk k) (skipWS rest')
    else none
  | _ + 1, [] => none

/-- Parse one `: value` member continuation given its key. -/
def parseObjectMember : Nat → List (String × Value) → String → List Char →
    Option (Value × List Char)
  | 0, _, _, _ => none
  | fuel + 1, acc, k, ':' :: rest => do
    let (v, rest') ← parseValue fuel (skipWS rest)
    parseObjectItems fuel (acc ++ [(k, v)]) (skipWS rest')
  | _ + 1, _, _, _ => none

/-- Parse the continuation of an object after one or more members. -/
def parseObjectItems : Nat → List (String × Value) → List Char →
    Option (Value × List Char)
  | 0, _, _ => none
  | fuel + 1, acc, c :: rest =>
    if c = braceClose then some (.vobj acc, rest)
    else if c = ',' then
      match skipWS rest with
      | '"' :: rest' => do
        let (k, rest'') ← parseStrChars rest'
        parseObjectMember fuel acc (String.mk k) (skipWS rest'')
      | _ => none
    else none
  | _ + 1, _, [] => none
end

/-- Parsing (`JSON.parse`) over the `Value` model: parse one value surrounded by
optional whitespace, rejecting trailing garbage. -/
def jsonParse (s : String) : Option Value :=
  match parseValue (s.data.length + 1) (skipWS s.data) with
  | some (v, rest) =>
    match skipWS rest with
    | [] => some v
    | _ => none
  | none => none

/-- Configuration options of `createParameterizedSelector`, after merging
with the defaults.  The merged record always carries a numeric `maxSize`
(the default 10 or the caller's value); `expireAfter` is optional.
`debugLabel`, `logMisses` and `logHits` only influence console logging and
error-report context, never cache behaviour; they are carried for
completeness.  `equalityCheck` is the `resultEqualityCheck` handed to the
inner memoizer. -/
structure SelectorOptions (Result : Type) where
  maxSize : Nat
  equalityCheck : Result → Result → Bool
  trackPerformance : Bool
  logMisses : Bool
  logHits : Bool
  expireAfter : Option Int
  debugLabel : Option String

/-- The `DEFAULT_OPTIONS` record (reference equality is modelled as value
equality of the embedded results). -/
def defaultOptions (Result : Type) [DecidableEq Result] : SelectorOptions Result where
  maxSize := 10
  equalityCheck := fun a b => decide (a = b)
  trackPerformance := false
  logMisses := false
  logHits := false
  expireAfter := none
  debugLabel := none

/-- One cache entry of the factory's `selectorCache`: the argument tuple the
inner selector closed over, the inner memoizer's retained last
(state, result) pair, and the bookkeeping fields of the source entry. -/
structure CacheEntry (State Result : Type) where
  params : List Value
  memo : Option (State × Result)
  lastUsed : Int
  created : Int
  hits : Nat
  misses : Nat
  executionTime : Int

/-- The mutable closure state of one factory instance. `selectorCache`
models the insertion-ordered `Map` as an association list with unique keys;
`keyUsage` is the LRU order list (least recently used first). -/
structure FactoryState (State Result : Type) where
  selectorCache : List (String × CacheEntry State Result)
  keyUsage : List String
  totalHits : Nat
  totalMisses : Nat
  totalExecutionTime : Int

/-- The state of a factory at creation: empty cache, zeroed counters. -/
def initialFactoryState (State Result : Type) : FactoryState State Result where
  selectorCache := []
  keyUsage := []
  totalHits := 0
  totalMisses := 0
  totalExecutionTime := 0

/-- Lookup (`Map.prototype.get`): the value stored under a key, if any. -/
def mapLookup {α : Type} : List (String × α) → String → Option α
  | [], _ => none
  | (k', v) :: rest, k => if k' = k then some v else mapLookup rest k

/-- Deletion (`Map.prototype.delete`): remove the entry stored under a key. -/
def mapErase {α : Type} : List (String × α) → String → List (String × α)
  | [], _ => []
  | (k', v) :: rest, k => if k' = k then rest else (k', v) :: mapErase rest k

/-- Insertion (`Map.prototype.set`): overwrite in place if the key is present, else
append in insertion order. -/
def mapSet {α : Type} : List (String × α) → String → α → List (String × α)
  | [], k, v => [(k, v)]
  | (k', v') :: rest, k, v =>
    if k' = k then (k, v) :: rest else (k', v') :: mapSet rest k v

/-- In-place mutation of the entry object stored under a key: replaces the
value if the key is present and does nothing otherwise (a mutation of an
entry that was already evicted is invisible to the map). -/
def mapUpdate {α : Type} : List (String × α) → String → α → List (String × α)
  | [], _, _ => []
  | (k', v') :: rest, k, v =>
    if k' = k then (k, v) :: rest else (k', v') :: mapUpdate rest k v

/-- The expiry test from `getOrCreateCacheEntry`:
`expireAfter && (now - cacheEntry.created > expireAfter)`, where a
configured `expireAfter` of `0` is falsy and disables expiry. -/
def isExpiredAt (expireAfter : Option Int) (created now : Int) : Bool :=
  match expireAfter with
  | none => false
  | some t => t != 0 && decide (now - created > t)

/-- The source's `getOrCreateCacheEntry`: move the key to the most-recently-used end of
`keyUsage`, drop the stored entry if it expired, then either create-and-
insert a fresh entry (a miss, evicting the least-recently-used key when the
store outgrows `maxSize` — `keyUsage.shift()` followed by a `Map` delete
guarded by the shifted key's truthiness) or update the found entry's usage
fields (a hit).  Returns the entry object the call uses together with the
updated closure state; `now` is the `dateUtils.create()` reading. -/
def getOrCreateCacheEntry {State Result : Type} (opts : SelectorOptions Result)
    (σ : FactoryState State Result) (params : List Value) (now : Int) :
    CacheEntry State Result × FactoryState State Result :=
  let cacheKey := getCacheKeyForParams params
  let keyUsage := σ.keyUsage.erase cacheKey ++ [cacheKey]
  let lookedUp :=
    match mapLookup σ.selectorCache cacheKey with
    | some e =>
      if isExpiredAt opts.expireAfter e.created now then
        (mapErase σ.selectorCache cacheKey, none)
      else (σ.selectorCache, some e)
    | none => (σ.selectorCache, none)
  match lookedUp with
  | (cache0, some e) =>
    let e' := { e with lastUsed := now, hits := e.hits + 1 }
    (e', { σ with
      selectorCache := mapSet cache0 cacheKey e'
      keyUsage := keyUsage
      totalHits := σ.totalHits + 1 })
  | (cache0, none) =>
    let e : CacheEntry State Result :=
      { params := params, memo := none, lastUsed := now, created := now,
        hits := 0, misses := 1, executionTime := 0 }
    let cache1 := mapSet cache0 cacheKey e
    let totalMisses := σ.totalMisses + 1
    if cache1.length > opts.maxSize then
      match keyUsage with
      | [] =>
        (e, { σ with selectorCache := cache1, keyUsage := [], totalMisses := totalMisses })
      | oldestKey :: rest =>
        (e, { σ with
          selectorCache := if oldestKey = "" then cache1 else mapErase cache1 oldestKey
          keyUsage := rest
          totalMisses := totalMisses })
    else
      (e, { σ with selectorCache := cache1, keyUsage := keyUsage, totalMisses := totalMisses })

/-- One invocation of the inner `createSelector`-memoized selector (reselect
semantics over the single dependency `state`): a reference-identical state
returns the retained result untouched; otherwise the wrapped computation
runs, a thrown exception propagates without mutating the memo, and an
accepted `resultEqualityCheck` keeps the previous result object. -/
def innerCall {State Result E : Type} [DecidableEq State]
    (resultEq : Result → Result → Bool) (compute : State → Except E Result)
    (memo : Option (State × Result)) (st : State) :
    Except E Result × Option (State × Result) :=
  match memo with
  | some (s0, r0) =>
    if st = s0 then (.ok r0, some (s0, r0))
    else
      match compute st with
      | .error err => (.error err, some (s0, r0))
      | .ok r =>
        if resultEq r0 r then (.ok r0, some (st, r0)) else (.ok r, some (st, r))
  | none =>
    match compute st with
    | .error err => (.error err, none)
    | .ok r => (.ok r, some (st, r))

/-- The source's `computeResult`: run the entry's inner selector on the state; when
`trackPerformance` is set, add `performance.now() - cacheEntry.executionTime`
to both the entry's `executionTime` and (via the returned delta) the
factory-wide total.  A thrown exception propagates before any of those
updates run.  `perfNow` is the `performance.now()` reading. -/
def computeResult {State Result E : Type} [DecidableEq State]
    (opts : SelectorOptions Result) (compute : State → Except E Result)
    (st : State) (e : CacheEntry State Result) (perfNow : Int) :
    Except E Result × CacheEntry State Result × Int :=
  match innerCall opts.equalityCheck compute e.memo st with
  | (.error err, _) => (.error err, e, 0)
  | (.ok r, memo') =>
    let e' := { e with memo := memo' }
    if opts.trackPerformance then
      let executionTime := perfNow - e'.executionTime
      (.ok r, { e' with executionTime := e'.executionTime + executionTime }, executionTime)
    else
      (.ok r, e', 0)

/-- The source's `factorySelector`: the callable produced by
`createParameterizedSelector`.  Look up or create the cache entry for the
(encoded) argument tuple, then compute the result through the entry's inner
selector, which closes over the entry's stored argument tuple.  The entry
object's post-call fields are written back to the map when the key is still
present (object mutation). -/
def factorySelector {State Result E : Type} [DecidableEq State]
    (opts : SelectorOptions Result)
    (selector : State → List Value → Except E Result)
    (σ : FactoryState State Result) (st : State) (params : List Value)
    (now perfNow : Int) : Except E Result × FactoryState State Result :=
  let cacheKey := getCacheKeyForParams params
  match getOrCreateCacheEntry opts σ params now with
  | (e, σ1) =>
    match computeResult opts (fun s => selector s e.params) st e perfNow with
    | (res, e', delta) =>
      (res, { σ1 with
        selectorCache := mapUpdate σ1.selectorCache cacheKey e'
        totalExecutionTime := σ1.totalExecutionTime + delta })

/-- The source's `clearCache`: empty the store and the LRU order list (the aggregate
counters are not reset). -/
def clearCache {State Result : Type} (σ : FactoryState State Result) :
    FactoryState State Result :=
  { σ with selectorCache := [], keyUsage := [] }

/-- The source's `invalidateCache`: with no predicate, clear everything and return
nothing.  With a predicate, collect every stored key whose `JSON.parse`
succeeds and whose decoded tuple satisfies the predicate (a decode failure
skips the key), remove those keys from both the map and the LRU order list,
and return how many were removed. -/
def invalidateCache {State Result : Type} (σ : FactoryState State Result)
    (predicate? : Option (Value → Bool)) :
    Option Nat × FactoryState State Result :=
  match predicate? with
  | none => (none, clearCache σ)
  | some predicate =>
    let keysToRemove := σ.selectorCache.filterMap (fun kv =>
      match jsonParse kv.1 with
      | some params => if predicate params then some kv.1 else none
      | none => none)
    (some keysToRemove.length,
      { σ with
        selectorCache := keysToRemove.foldl (fun m k => mapErase m k) σ.selectorCache
        keyUsage := keysToRemove.foldl (fun u k => u.erase k) σ.keyUsage })

/-- The scalar fields of `getStats()` used by the claims (`hitRate` and
`averageExecutionTime` are floating-point ratios of these fields and the
`entries` snapshot is a per-entry projection; neither carries independent
state). -/
structure SelectorStats where
  cacheSize : Nat
  maxSize : Nat
  totalHits : Nat
  totalMisses : Nat
  totalExecutionTime : Int
deriving DecidableEq

/-- The source's `getStats()` (scalar part). -/
def getStats {State Result : Type} (opts : SelectorOptions Result)
    (σ : FactoryState State Result) : SelectorStats where
  cacheSize := σ.selectorCache.length
  maxSize := opts.maxSize
  totalHits := σ.totalHits
  totalMisses := σ.totalMisses
  totalExecutionTime := σ.totalExecutionTime

/-- One recorded invocation of the factory selector: the state argument, the
argument tuple, and the two clock readings the call observes. -/
structure SelectorCall (State : Type) where
  state : State
  params : List Value
  now : Int
  perfNow : Int

/-- Run a finite sequence of factory-selector invocations, threading the
closure state. -/
def runCalls {State Result E : Type} [DecidableEq State]
    (opts : SelectorOptions Result)
    (selector : State → List Value → Except E Result) :
    FactoryState State Result → List (SelectorCall State) →
    FactoryState State Result
  | σ, [] => σ
  | σ, c :: cs =>
    runCalls opts selector
      (factorySelector opts selector σ c.state c.params c.now c.perfNow).2 cs

/-- Well-formedness of a factory state, maintained by every operation: the
LRU order list holds exactly the stored keys (as a permutation of the map's
key sequence), without duplicates, and never holds the empty string (every
stored key is an encoder output, which is never empty — relevant because the
eviction guard `if (oldestKey)` treats an empty-string key as falsy). -/
def WF {State Result : Type} (σ : FactoryState State Result) : Prop :=
  (σ.selectorCache.map Prod.fst).Perm σ.keyUsage ∧
  σ.keyUsage.Nodup ∧
  ∀ k ∈ σ.keyUsage, k ≠ ""

/-- Integer `Math.ceil(a / b)` for `b ≠ 0`. -/
def mathCeilDiv (a b : Int) : Int := -(Int.fdiv (-a) b)

/-- Slicing (`Array.prototype.slice(s, e)`): clamp both indices into the array (a
negative index counts from the end), then take the elements in between. -/
def jsSlice {α : Type} (l : List α) (s e : Int) : List α :=
  let len : Int := l.length
  let s' := if s < 0 then max (len + s) 0 else min s len
  let e' := if e < 0 then max (len + e) 0 else min e len
  (l.drop s'.toNat).take (e'.toNat - s'.toNat)

/-- The `pagination` record returned by the pagination selector. -/
structure PaginationInfo where
  totalItems : Int
  totalPages : Int
  currentPage : Int
  pageSize : Int
  hasNextPage : Bool
  hasPreviousPage : Bool
deriving DecidableEq

/-- The full return value of the pagination selector. -/
structure PaginationResult (α : Type) where
  items : List α
  pagination : PaginationInfo

/-- The selector body of `createPaginationSelector`: compute `totalPages`
with `Math.ceil`, clamp the requested page into `[0, totalPages - 1]`
(through `Math.max(0, Math.min(page, totalPages - 1))`), and slice one
page out of the source array. -/
def paginationSelectorBody {α : Type} (array : List α) (page pageSize : Int) :
    PaginationResult α :=
  let totalItems : Int := array.length
  let totalPages : Int := mathCeilDiv totalItems pageSize
  let normalizedPage : Int := max 0 (min page (totalPages - 1))
  let start := normalizedPage * pageSize
  { items := jsSlice array start (start + pageSize),
    pagination :=
      { totalItems := totalItems
        totalPages := totalPages
        currentPage := normalizedPage
        pageSize := pageSize
        hasNextPage := decide (normalizedPage < totalPages - 1)
        hasPreviousPage := decide (normalizedPage > 0) } }

/-! ### Association-list map lemmas -/

theorem mapLookup_eq_none_iff {α : Type} (m : List (String × α)) (k : String) :
    mapLookup m k = none ↔ k ∉ m.map Prod.fst := by
  induction m with
  | nil => simp [mapLookup]
  | cons kv rest ih =>
    obtain ⟨k', v⟩ := kv
    by_cases h : k' = k
    · subst h
      simp [mapLookup]
    · simp [mapLookup, h, ih, Ne.symm h]

theorem mapLookup_isSome_iff {α : Type} (m : List (String × α)) (k : String) :
    (mapLookup m k).isSome ↔ k ∈ m.map Prod.fst := by
  induction m with
  | nil => simp [mapLookup]
  | cons kv rest ih =>
    obtain ⟨k', v⟩ := kv
    by_cases h : k' = k
    · subst h
      simp [mapLookup]
    · simp [mapLookup, h, ih, Ne.symm h]

theorem map_fst_mapSet_of_not_mem {α : Type} (m : List (String × α)) (k : String)
    (v : α) (h : k ∉ m.map Prod.fst) :
    (mapSet m k v).map Prod.fst = m.map Prod.fst ++ [k] := by
  induction m with
  | nil => simp [mapSet]
  | cons kv rest ih =>
    obtain ⟨k', v'⟩ := kv
    simp only [List.map_cons, List.mem_cons] at h
    push_neg at h
    simp [mapSet, Ne.symm h.1, ih h.2]

theorem map_fst_mapSet_of_mem {α : Type} (m : List (String × α)) (k : String)
    (v : α) (h : k ∈ m.map Prod.fst) :
    (mapSet m k v).map Prod.fst = m.map Prod.fst := by
  induction m with
  | nil => simp at h
  | cons kv rest ih =>
    obtain ⟨k', v'⟩ := kv
    by_cases hk : k' = k
    · subst hk
      simp [mapSet]
    · simp only [List.map_cons, List.mem_cons] at h
      rcases h with h | h
    
      · exact absurd h.symm hk
      · simp [mapSet, hk, ih h]

theorem map_fst_mapErase {α : Type} (m : List (String × α)) (k : String) :
    (mapErase m k).map Prod.fst = (m.map Prod.fst).erase k := by
  induction m with
  | nil => simp [mapErase]
  | cons kv rest ih =>
    obtain ⟨k', v'⟩ := kv
    by_cases hk : k' = k
    · subst hk
      simp [mapErase, List.erase_cons_head]
    · simp [mapErase, hk, List.erase_cons, ih]

theorem map_fst_mapUpdate {α : Type} (m : List (String × α)) (k : String) (v : α) :
    (mapUpdate m k v).map Prod.fst = m.map Prod.fst := by
  induction m with
  | nil => simp [mapUpdate]
  | cons kv rest ih =>
    obtain ⟨k', v'⟩ := kv
    by_cases hk : k' = k
    · subst hk
      simp [mapUpdate]
    · simp [mapUpdate, hk, ih]

theorem length_mapUpdate {α : Type} (m : List (String × α)) (k : String) (v : α) :
    (mapUpdate m k v).length = m.length := by
  have h := map_fst_mapUpdate m k v
  have := congrArg List.length h
  simpa using this

theorem length_mapSet_of_not_mem {α : Type} (m : List (String × α)) (k : String)
    (v : α) (h : k ∉ m.map Prod.fst) :
    (mapSet m k v).length = m.length + 1 := by
  have := congrArg List.length (map_fst_mapSet_of_not_mem m k v h)
  simpa using this

theorem length_mapSet_of_mem {α : Type} (m : List (String × α)) (k : String)
    (v : α) (h : k ∈ m.map Prod.fst) :
    (mapSet m k v).length = m.length := by
  have := congrArg List.length (map_fst_mapSet_of_mem m k v h)
  simpa using this

theorem length_mapErase_of_mem {α : Type} (m : List (String × α)) (k : String)
    (h : k ∈ m.map Prod.fst) :
    (mapErase m k).length = m.length - 1 := by
  have := congrArg List.length (map_fst_mapErase m k)
  simpa [List.length_erase_of_mem h] using this

theorem mapErase_of_not_mem {α : Type} (m : List (String × α)) (k : String)
    (h : k ∉ m.map Prod.fst) : mapErase m k = m := by
  induction m with
  | nil => rfl
  | cons kv rest ih =>
    obtain ⟨k', v'⟩ := kv
    simp only [List.map_cons, List.mem_cons] at h
    push_neg at h
    simp [mapErase, Ne.symm h.1, ih h.2]

theorem mapLookup_mapSet_self {α : Type} (m : List (String × α)) (k : String) (v : α) :
    mapLookup (mapSet m k v) k = some v := by
  induction m with
  | nil => simp [mapSet, mapLookup]
  | cons kv rest ih =>
    obtain ⟨k', v'⟩ := kv
    by_cases hk : k' = k
    · subst hk
      simp [mapSet, mapLookup]
    · simp [mapSet, mapLookup, hk, ih]

theorem mapLookup_mapSet_ne {α : Type} (m : List (String × α)) (k k' : String) (v : α)
    (h : k' ≠ k) : mapLookup (mapSet m k v) k' = mapLookup m k' := by
  induction m with
  | nil => simp [mapSet, mapLookup, Ne.symm h]
  | cons kv rest ih =>
    obtain ⟨k0, v0⟩ := kv
    by_cases hk : k0 = k
    · subst hk
      have hne : ¬k0 = k' := fun hh => h hh.symm
      simp [mapSet, mapLookup, hne]
    · simp [mapSet, mapLookup, hk, ih]

theorem mapLookup_mapUpdate_self {α : Type} (m : List (String × α)) (k : String)
    (v : α) (h : k ∈ m.map Prod.fst) :
    mapLookup (mapUpdate m k v) k = some v := by
  induction m with
  | nil => simp at h
  | cons kv rest ih =>
    obtain ⟨k', v'⟩ := kv
    by_cases hk : k' = k
    · subst hk
      simp [mapUpdate, mapLookup]
    · simp only [List.map_cons, List.mem_cons] at h
      rcases h with h | h
      · exact absurd h.symm hk
      · simp [mapUpdate, mapLookup, hk, ih h]

theorem mapLookup_mapErase_self {α : Type} (m : List (String × α)) (k : String)
    (hnd : (m.map Prod.fst).Nodup) :
    mapLookup (mapErase m k) k = none := by
  induction m with
  | nil => rfl
  | cons kv rest ih =>
    obtain ⟨k', v'⟩ := kv
    simp only [List.map_cons, List.nodup_cons] at hnd
    by_cases hk : k' = k
    · subst hk
      rw [mapErase, if_pos rfl, mapLookup_eq_none_iff]
      exact hnd.1
    · simp [mapErase, hk, mapLookup, ih hnd.2]

/-! ### Encoder and step characterization lemmas -/

theorem getCacheKeyForParams_ne_empty (params : List Value) :
    getCacheKeyForParams params ≠ "" := by
  intro h
  have := congrArg String.data h
  simp [getCacheKeyForParams, String.data_append] at this

/-- The fresh entry inserted on a cache miss. -/
def freshEntry (State Result : Type) (params : List Value) (now : Int) :
    CacheEntry State Result :=
  { params := params, memo := none, lastUsed := now, created := now,
    hits := 0, misses := 1, executionTime := 0 }

theorem getOrCreate_hit {State Result : Type} (opts : SelectorOptions Result)
    (σ : FactoryState State Result) (ps : List Value) (now : Int)
    (e : CacheEntry State Result)
    (hl : mapLookup σ.selectorCache (getCacheKeyForParams ps) = some e)
    (hx : isExpiredAt opts.expireAfter e.created now = false) :
    getOrCreateCacheEntry opts σ ps now =
      ({ e with lastUsed := now, hits := e.hits + 1 },
       { σ with
         selectorCache := mapSet σ.selectorCache (getCacheKeyForParams ps)
           { e with lastUsed := now, hits := e.hits + 1 }
         keyUsage := σ.keyUsage.erase (getCacheKeyForParams ps) ++
           [getCacheKeyForParams ps]
         totalHits := σ.totalHits + 1 }) := by
  simp [getOrCreateCacheEntry, hl, hx]

theorem getOrCreate_miss_noovf {State Result : Type} (opts : SelectorOptions Result)
    (σ : FactoryState State Result) (ps : List Value) (now : Int)
    (hl : mapLookup σ.selectorCache (getCacheKeyForParams ps) = none)
    (hlen : σ.selectorCache.length + 1 ≤ opts.maxSize) :
    getOrCreateCacheEntry opts σ ps now =
      (freshEntry State Result ps now,
       { σ with
         selectorCache := mapSet σ.selectorCache (getCacheKeyForParams ps)
           (freshEntry State Result ps now)
         keyUsage := σ.keyUsage.erase (getCacheKeyForParams ps) ++
           [getCacheKeyForParams ps]
         totalMisses := σ.totalMisses + 1 }) := by
  have hmem : getCacheKeyForParams ps ∉ σ.selectorCache.map Prod.fst :=
    (mapLookup_eq_none_iff _ _).mp hl
  have hlen' : (mapSet σ.selectorCache (getCacheKeyForParams ps)
      ({ params := ps, memo := none, lastUsed := now, created := now, hits := 0,
         misses := 1, executionTime := 0 } : CacheEntry State Result)).length =
      σ.selectorCache.length + 1 :=
    length_mapSet_of_not_mem _ _ _ hmem
  simp only [getOrCreateCacheEntry, hl, freshEntry]
  rw [if_neg (by omega)]

theorem getOrCreate_miss_ovf {State Result : Type} (opts : SelectorOptions Result)
    (σ : FactoryState State Result) (ps : List Value) (now : Int)
    (u : String) (us : List String)
    (hl : mapLookup σ.selectorCache (getCacheKeyForParams ps) = none)
    (hlen : opts.maxSize < σ.selectorCache.length + 1)
    (husage : σ.keyUsage.erase (getCacheKeyForParams ps) ++
      [getCacheKeyForParams ps] = u :: us) :
    getOrCreateCacheEntry opts σ ps now =
      (freshEntry State Result ps now,
       { σ with
         selectorCache :=
           if u = "" then
             mapSet σ.selectorCache (getCacheKeyForParams ps)
               (freshEntry State Result ps now)
           else
             mapErase (mapSet σ.selectorCache (getCacheKeyForParams ps)
               (freshEntry State Result ps now)) u
         keyUsage := us
         totalMisses := σ.totalMisses + 1 }) := by
  have hmem : getCacheKeyForParams ps ∉ σ.selectorCache.map Prod.fst :=
    (mapLookup_eq_none_iff _ _).mp hl
  have hlen' : (mapSet σ.selectorCache (getCacheKeyForParams ps)
      ({ params := ps, memo := none, lastUsed := now, created := now, hits := 0,
         misses := 1, executionTime := 0 } : CacheEntry State Result)).length =
      σ.selectorCache.length + 1 :=
    length_mapSet_of_not_mem _ _ _ hmem
  simp only [getOrCreateCacheEntry, hl, freshEntry]
  rw [if_pos (by omega), husage]

theorem getOrCreate_expired_eq {State Result : Type} (opts : SelectorOptions Result)
    (σ : FactoryState State Result) (ps : List Value) (now : Int)
    (e : CacheEntry State Result)
    (hnd : (σ.selectorCache.map Prod.fst).Nodup)
    (hl : mapLookup σ.selectorCache (getCacheKeyForParams ps) = some e)
    (hx : isExpiredAt opts.expireAfter e.created now = true) :
    getOrCreateCacheEntry opts σ ps now =
      getOrCreateCacheEntry opts
        { σ with selectorCache := mapErase σ.selectorCache (getCacheKeyForParams ps) }
        ps now := by
  have hl' : mapLookup (mapErase σ.selectorCache (getCacheKeyForParams ps))
      (getCacheKeyForParams ps) = none :=
    mapLookup_mapErase_self σ.selectorCache (getCacheKeyForParams ps) hnd
  simp [getOrCreateCacheEntry, hl, hx, hl']

theorem factorySelector_state_fields {State Result E : Type} [DecidableEq State]
    (opts : SelectorOptions Result)
    (selector : State → List Value → Except E Result)
    (σ : FactoryState State Result) (st : State) (params : List Value)
    (now perfNow : Int) :
    (factorySelector opts selector σ st params now perfNow).2.totalHits =
      (getOrCreateCacheEntry opts σ params now).2.totalHits ∧
    (factorySelector opts selector σ st params now perfNow).2.totalMisses =
      (getOrCreateCacheEntry opts σ params now).2.totalMisses ∧
    (factorySelector opts selector σ st params now perfNow).2.selectorCache.map Prod.fst =
      (getOrCreateCacheEntry opts σ params now).2.selectorCache.map Prod.fst ∧
    (factorySelector opts selector σ st params now perfNow).2.selectorCache.length =
      (getOrCreateCacheEntry opts σ params now).2.selectorCache.length ∧
    (factorySelector opts selector σ st params now perfNow).2.keyUsage =
      (getOrCreateCacheEntry opts σ params now).2.keyUsage := by
  rcases hg : getOrCreateCacheEntry opts σ params now with ⟨e, σ1⟩
  rcases hc : computeResult opts (fun s => selector s e.params) st e perfNow with
    ⟨res, e1, delta⟩
  simp [factorySelector, hg, hc, map_fst_mapUpdate, length_mapUpdate]

theorem mapLookup_some_mem {α : Type} {m : List (String × α)} {k : String}
    {v : α} (h : mapLookup m k = some v) : k ∈ m.map Prod.fst := by
  have : (mapLookup m k).isSome := by simp [h]
  exact (mapLookup_isSome_iff m k).mp this

theorem WF_initial (State Result : Type) : WF (initialFactoryState State Result) := by
  refine ⟨?_, ?_, ?_⟩ <;> simp [initialFactoryState, WF]


theorem nodup_erase_append_singleton (l : List String) (K : String)
    (hnd : l.Nodup) : (l.erase K ++ [K]).Nodup := by
  refine (hnd.erase K).append (List.nodup_singleton K) ?_
  intro a ha hb
  simp only [List.mem_singleton] at hb
  subst hb
  exact ((hnd.mem_erase_iff).mp ha).1 rfl

theorem ne_empty_erase_append_singleton (l : List String) (K : String)
    (hne : ∀ k ∈ l, k ≠ "") (hKne : K ≠ "") :
    ∀ k ∈ l.erase K ++ [K], k ≠ "" := by
  intro k hk
  rcases List.mem_append.mp hk with hk | hk
  · exact hne k (List.mem_of_mem_erase hk)
  · simp only [List.mem_singleton] at hk
    exact hk ▸ hKne

theorem WF_getOrCreate {State Result : Type} (opts : SelectorOptions Result)
    (σ : FactoryState State Result) (ps : List Value) (now : Int)
    (h : WF σ) : WF (getOrCreateCacheEntry opts σ ps now).2 := by
  obtain ⟨hperm, hnd, hne⟩ := h
  set K := getCacheKeyForParams ps with hKdef
  have hKne : K ≠ "" := getCacheKeyForParams_ne_empty ps
  have hndk : (σ.selectorCache.map Prod.fst).Nodup := (hperm.nodup_iff).mpr hnd
  rcases hlook : mapLookup σ.selectorCache K with _ | e
  · -- fresh miss
    have hnotmem : K ∉ σ.selectorCache.map Prod.fst :=
      (mapLookup_eq_none_iff _ _).mp hlook
    have hnotusage : K ∉ σ.keyUsage := fun hmem => hnotmem (hperm.mem_iff.mpr hmem)
    have heraseu : σ.keyUsage.erase K = σ.keyUsage := List.erase_of_not_mem hnotusage
    by_cases hovf : σ.selectorCache.length + 1 ≤ opts.maxSize
    · rw [getOrCreate_miss_noovf opts σ ps now hlook hovf]
      refine ⟨?_, nodup_erase_append_singleton _ _ hnd,
        ne_empty_erase_append_singleton _ _ hne hKne⟩
      rw [map_fst_mapSet_of_not_mem σ.selectorCache K _ hnotmem, heraseu]
      exact hperm.append_right [K]
    · push_neg at hovf
      rcases husagel : σ.keyUsage with _ | ⟨u, us⟩
      · have hcache : σ.selectorCache.map Prod.fst = [] := by
          have hp := hperm
          rw [husagel] at hp
          exact List.perm_nil.mp hp
        have husage' : σ.keyUsage.erase K ++ [K] = K :: [] := by
          simp [husagel]
        rw [getOrCreate_miss_ovf opts σ ps now K [] hlook hovf husage']
        refine ⟨?_, by simp, by simp⟩
        simp only [if_neg hKne]
        rw [map_fst_mapErase,
          map_fst_mapSet_of_not_mem σ.selectorCache K _ hnotmem, hcache]
        simp
      · have husage' : σ.keyUsage.erase K ++ [K] = u :: (us ++ [K]) := by
          rw [heraseu, husagel]
          simp
        have huin : u ∈ σ.keyUsage := by rw [husagel]; simp
        have hune : u ≠ "" := hne u huin
        rw [getOrCreate_miss_ovf opts σ ps now u (us ++ [K]) hlook hovf husage']
        have hndike : (σ.keyUsage.erase K ++ [K]).Nodup :=
          nodup_erase_append_singleton _ _ hnd
        rw [husage'] at hndike
        refine ⟨?_, (List.nodup_cons.mp hndike).2, ?_⟩
        · simp only [if_neg hune]
          rw [map_fst_mapErase,
            map_fst_mapSet_of_not_mem σ.selectorCache K _ hnotmem]
          have hstep : (σ.selectorCache.map Prod.fst ++ [K]).Perm (u :: (us ++ [K])) := by
            have h1 := hperm.append_right [K]
            rw [husagel] at h1
            simpa using h1
          have h2 := hstep.erase u
          rwa [List.erase_cons_head] at h2
        · intro k hk
          have : k ∈ σ.keyUsage.erase K ++ [K] := by
            rw [husage']
            exact List.mem_cons_of_mem u hk
          exact ne_empty_erase_append_singleton _ _ hne hKne k this
  · -- found an entry
    have hmem : K ∈ σ.selectorCache.map Prod.fst := mapLookup_some_mem hlook
    have hmemu : K ∈ σ.keyUsage := hperm.mem_iff.mp hmem
    rcases hexp : isExpiredAt opts.expireAfter e.created now with _ | _
    · -- hit
      rw [getOrCreate_hit opts σ ps now e hlook hexp]
      refine ⟨?_, nodup_erase_append_singleton _ _ hnd,
        ne_empty_erase_append_singleton _ _ hne hKne⟩
      rw [map_fst_mapSet_of_mem σ.selectorCache K _ hmem]
      exact hperm.trans ((List.perm_cons_erase hmemu).trans
        (List.perm_append_singleton K (σ.keyUsage.erase K)).symm)
    · -- expired: behaves like a fresh miss on the erased store
      rw [getOrCreate_expired_eq opts σ ps now e hndk hlook hexp]
      set σ' : FactoryState State Result :=
        { σ with selectorCache := mapErase σ.selectorCache K } with hσ'
      have hlook' : mapLookup σ'.selectorCache K = none :=
        mapLookup_mapErase_self σ.selectorCache K hndk
      have hnotmem' : K ∉ σ'.selectorCache.map Prod.fst :=
        (mapLookup_eq_none_iff _ _).mp hlook'
      have hperm' : (σ'.selectorCache.map Prod.fst).Perm (σ.keyUsage.erase K) := by
        simp only [hσ', map_fst_mapErase]
        exact hperm.erase K
      have husageq : σ'.keyUsage = σ.keyUsage := rfl
      by_cases hovf : σ'.selectorCache.length + 1 ≤ opts.maxSize
      · rw [getOrCreate_miss_noovf opts σ' ps now hlook' hovf]
        refine ⟨?_, ?_, ?_⟩
        · rw [map_fst_mapSet_of_not_mem σ'.selectorCache K _ hnotmem', husageq]
          exact hperm'.append_right [K]
        · rw [husageq]
          exact nodup_erase_append_singleton _ _ hnd
        · rw [husageq]
          exact ne_empty_erase_append_singleton _ _ hne hKne
      · push_neg at hovf
        rcases hers : σ.keyUsage.erase K with _ | ⟨u, us⟩
        · have husage' : σ'.keyUsage.erase K ++ [K] = K :: [] := by
            rw [husageq, hers]
            rfl
          have hcache' : σ'.selectorCache.map Prod.fst = [] := by
            have hp := hperm'
            rw [hers] at hp
            exact List.perm_nil.mp hp
          rw [getOrCreate_miss_ovf opts σ' ps now K [] hlook' hovf husage']
          refine ⟨?_, by simp, by simp⟩
          simp only [if_neg hKne]
          rw [map_fst_mapErase,
            map_fst_mapSet_of_not_mem σ'.selectorCache K _ hnotmem', hcache']
          simp
        · have husage' : σ'.keyUsage.erase K ++ [K] = u :: (us ++ [K]) := by
            rw [husageq, hers]
            simp
          have huin : u ∈ σ.keyUsage := List.mem_of_mem_erase (by rw [hers]; simp)
          have hune : u ≠ "" := hne u huin
          rw [getOrCreate_miss_ovf opts σ' ps now u (us ++ [K]) hlook' hovf husage']
          have hndike : (σ.keyUsage.erase K ++ [K]).Nodup :=
            nodup_erase_append_singleton _ _ hnd
          rw [hers] at hndike
          have hndike' : (u :: (us ++ [K])).Nodup := by simpa using hndike
          refine ⟨?_, (List.nodup_cons.mp hndike').2, ?_⟩
          · simp only [if_neg hune]
            rw [map_fst_mapErase,
              map_fst_mapSet_of_not_mem σ'.selectorCache K _ hnotmem']
            have hstep : (σ'.selectorCache.map Prod.fst ++ [K]).Perm (u :: (us ++ [K])) := by
              have h1 := hperm'.append_right [K]
              rw [hers] at h1
              simpa using h1
            have h2 := hstep.erase u
            rwa [List.erase_cons_head] at h2
          · intro k hk
            have hk' : k ∈ σ.keyUsage.erase K ++ [K] := by
              rw [hers]
              simpa using List.mem_cons_of_mem u hk
            exact ne_empty_erase_append_singleton _ _ hne hKne k hk'

theorem length_getOrCreate_miss_full {State Result : Type}
    (opts : SelectorOptions Result) (σ : FactoryState State Result)
    (ps : List Value) (now : Int) (hWF : WF σ)
    (hlook : mapLookup σ.selectorCache (getCacheKeyForParams ps) = none)
    (hfull : σ.selectorCache.length = opts.maxSize) :
    (getOrCreateCacheEntry opts σ ps now).2.selectorCache.length = opts.maxSize := by
  obtain ⟨hperm, hnd, hne⟩ := hWF
  set K := getCacheKeyForParams ps with hKdef
  have hKne : K ≠ "" := getCacheKeyForParams_ne_empty ps
  have hnotmem : K ∉ σ.selectorCache.map Prod.fst :=
    (mapLookup_eq_none_iff _ _).mp hlook
  have hnotusage : K ∉ σ.keyUsage := fun hmem => hnotmem (hperm.mem_iff.mpr hmem)
  have heraseu : σ.keyUsage.erase K = σ.keyUsage := List.erase_of_not_mem hnotusage
  have hovf : opts.maxSize < σ.selectorCache.length + 1 := by omega
  rcases husagel : σ.keyUsage with _ | ⟨u, us⟩
  · have hcache : σ.selectorCache = [] := by
      have hp := hperm
      rw [husagel] at hp
      exact List.map_eq_nil_iff.mp (List.perm_nil.mp hp)
    have husage' : σ.keyUsage.erase K ++ [K] = K :: [] := by simp [husagel]
    rw [getOrCreate_miss_ovf opts σ ps now K [] hlook hovf husage']
    have hmax : opts.maxSize = 0 := by
      rw [hcache] at hfull
      simpa using hfull.symm
    simp [hcache, if_neg hKne, mapSet, mapErase, hmax]
  · have husage' : σ.keyUsage.erase K ++ [K] = u :: (us ++ [K]) := by
      rw [heraseu, husagel]
      simp
    have huin : u ∈ σ.keyUsage := by rw [husagel]; simp
    have hune : u ≠ "" := hne u huin
    rw [getOrCreate_miss_ovf opts σ ps now u (us ++ [K]) hlook hovf husage']
    simp only [if_neg hune]
    have humem : u ∈ (mapSet σ.selectorCache K
        (freshEntry State Result ps now)).map Prod.fst := by
      rw [map_fst_mapSet_of_not_mem σ.selectorCache K _ hnotmem]
      exact List.mem_append.mpr (Or.inl (hperm.mem_iff.mpr huin))
    have hlen1 : (mapSet σ.selectorCache K
        (freshEntry State Result ps now)).length = σ.selectorCache.length + 1 :=
      length_mapSet_of_not_mem _ _ _ hnotmem
    rw [length_mapErase_of_mem _ _ humem, hlen1]
    omega

theorem length_getOrCreate_le {State Result : Type}
    (opts : SelectorOptions Result) (σ : FactoryState State Result)
    (ps : List Value) (now : Int) (hWF : WF σ)
    (hle : σ.selectorCache.length ≤ opts.maxSize) :
    (getOrCreateCacheEntry opts σ ps now).2.selectorCache.length ≤ opts.maxSize := by
  obtain ⟨hperm, hnd, hne⟩ := hWF
  set K := getCacheKeyForParams ps with hKdef
  have hndk : (σ.selectorCache.map Prod.fst).Nodup := (hperm.nodup_iff).mpr hnd
  rcases hlook : mapLookup σ.selectorCache K with _ | e
  · by_cases hfull : σ.selectorCache.length = opts.maxSize
    · rw [length_getOrCreate_miss_full opts σ ps now ⟨hperm, hnd, hne⟩ hlook hfull]
    · have hlt : σ.selectorCache.length + 1 ≤ opts.maxSize := by omega
      rw [getOrCreate_miss_noovf opts σ ps now hlook hlt]
      have hnotmem : K ∉ σ.selectorCache.map Prod.fst :=
        (mapLookup_eq_none_iff _ _).mp hlook
      simpa [length_mapSet_of_not_mem _ _ _ hnotmem] using hlt
  · have hmem : K ∈ σ.selectorCache.map Prod.fst := mapLookup_some_mem hlook
    rcases hexp : isExpiredAt opts.expireAfter e.created now with _ | _
    · rw [getOrCreate_hit opts σ ps now e hlook hexp]
      simpa [length_mapSet_of_mem _ _ _ hmem] using hle
    · rw [getOrCreate_expired_eq opts σ ps now e hndk hlook hexp]
      set σ' : FactoryState State Result :=
        { σ with selectorCache := mapErase σ.selectorCache K } with hσ'
      have hlook' : mapLookup σ'.selectorCache K = none :=
        mapLookup_mapErase_self σ.selectorCache K hndk
      have hnotmem' : K ∉ σ'.selectorCache.map Prod.fst :=
        (mapLookup_eq_none_iff _ _).mp hlook'
      have hlen' : σ'.selectorCache.length = σ.selectorCache.length - 1 :=
        length_mapErase_of_mem _ _ hmem
      have hpos : 1 ≤ σ.selectorCache.length := by
        have hp : 0 < (σ.selectorCache.map Prod.fst).length :=
          List.length_pos.mpr (List.ne_nil_of_mem hmem)
        simpa using hp
      have hlt : σ'.selectorCache.length + 1 ≤ opts.maxSize := by omega
      rw [getOrCreate_miss_noovf opts σ' ps now hlook' hlt]
      simpa [length_mapSet_of_not_mem _ _ _ hnotmem'] using hlt

theorem WF_factorySelector {State Result E : Type} [DecidableEq State]
    (opts : SelectorOptions Result)
    (selector : State → List Value → Except E Result)
    (σ : FactoryState State Result) (st : State) (params : List Value)
    (now perfNow : Int) (h : WF σ) :
    WF (factorySelector opts selector σ st params now perfNow).2 := by
  obtain ⟨hh, hm, hk, hl, hu⟩ :=
    factorySelector_state_fields opts selector σ st params now perfNow
  have hg := WF_getOrCreate opts σ params now h
  exact ⟨hk ▸ hu ▸ hg.1, hu ▸ hg.2.1, hu ▸ hg.2.2⟩

theorem length_factorySelector_le {State Result E : Type} [DecidableEq State]
    (opts : SelectorOptions Result)
    (selector : State → List Value → Except E Result)
    (σ : FactoryState State Result) (st : State) (params : List Value)
    (now perfNow : Int) (h : WF σ)
    (hle : σ.selectorCache.length ≤ opts.maxSize) :
    (factorySelector opts selector σ st params now perfNow).2.selectorCache.length ≤
      opts.maxSize := by
  obtain ⟨_, _, _, hl, _⟩ :=
    factorySelector_state_fields opts selector σ st params now perfNow
  rw [hl]
  exact length_getOrCreate_le opts σ params now h hle

theorem WF_runCalls {State Result E : Type} [DecidableEq State]
    (opts : SelectorOptions Result)
    (selector : State → List Value → Except E Result)
    (calls : List (SelectorCall State)) (σ : FactoryState State Result)
    (h : WF σ) (hle : σ.selectorCache.length ≤ opts.maxSize) :
    WF (runCalls opts selector σ calls) ∧
    (runCalls opts selector σ calls).selectorCache.length ≤ opts.maxSize := by
  induction calls generalizing σ with
  | nil => exact ⟨h, hle⟩
  | cons c cs ih =>
    exact ih _ (WF_factorySelector opts selector σ c.state c.params c.now c.perfNow h)
      (length_factorySelector_le opts selector σ c.state c.params c.now c.perfNow h hle)

theorem mapLookup_mapErase_ne {α : Type} (m : List (String × α)) (k u : String)
    (h : k ≠ u) : mapLookup (mapErase m u) k = mapLookup m k := by
  induction m with
  | nil => rfl
  | cons kv rest ih =>
    obtain ⟨k0, v0⟩ := kv
    by_cases hk : k0 = u
    · subst hk
      simp [mapErase, mapLookup, Ne.symm h]
    · by_cases hk' : k0 = k
      · subst hk'
        simp [mapErase, mapLookup, hk]
      · simp [mapErase, mapLookup, hk, hk', ih]

theorem isExpiredAt_eq_false_of_le (expireAfter : Option Int) (created now : Int)
    (h : ∀ T, expireAfter = some T → now - created ≤ T) :
    isExpiredAt expireAfter created now = false := by
  rcases hx : expireAfter with _ | T
  · rfl
  · have := h T hx
    simp [isExpiredAt, hx]
    omega

theorem innerCall_error_memo {State Result E : Type} [DecidableEq State]
    (resultEq : Result → Result → Bool) (compute : State → Except E Result)
    (memo : Option (State × Result)) (st : State) (err : E)
    (h : (innerCall resultEq compute memo st).1 = .error err) :
    (innerCall resultEq compute memo st).2 = memo := by
  rcases memo with _ | ⟨s0, r0⟩
  · rcases hg : compute st with e | r
    · simp [innerCall, hg]
    · simp [innerCall, hg] at h
  · by_cases hs : st = s0
    · simp [innerCall, hs] at h
    · rcases hg : compute st with e | r
      · simp [innerCall, hs, hg]
      · by_cases he : resultEq r0 r <;> simp [innerCall, hs, hg, he] at h

theorem innerCall_idem {State Result E : Type} [DecidableEq State]
    (resultEq : Result → Result → Bool) (compute : State → Except E Result)
    (memo : Option (State × Result)) (st : State) :
    innerCall resultEq compute (innerCall resultEq compute memo st).2 st =
      innerCall resultEq compute memo st := by
  rcases memo with _ | ⟨s0, r0⟩
  · rcases hg : compute st with e | r
    · simp [innerCall, hg]
    · simp [innerCall, hg]
  · by_cases hs : st = s0
    · subst hs
      simp [innerCall]
    · rcases hg : compute st with e | r
      · simp [innerCall, hs, hg]
      · by_cases he : resultEq r0 r <;> simp [innerCall, hs, hg, he]

theorem computeResult_spec {State Result E : Type} [DecidableEq State]
    (opts : SelectorOptions Result) (compute : State → Except E Result)
    (st : State) (e : CacheEntry State Result) (perfNow : Int) :
    (computeResult opts compute st e perfNow).1 =
      (innerCall opts.equalityCheck compute e.memo st).1 ∧
    (computeResult opts compute st e perfNow).2.1.memo =
      (innerCall opts.equalityCheck compute e.memo st).2 ∧
    (computeResult opts compute st e perfNow).2.1.params = e.params ∧
    (computeResult opts compute st e perfNow).2.1.created = e.created ∧
    (computeResult opts compute st e perfNow).2.1.hits = e.hits ∧
    (computeResult opts compute st e perfNow).2.1.misses = e.misses := by
  rcases hic : innerCall opts.equalityCheck compute e.memo st with ⟨res, m'⟩
  rcases res with err | r
  · have hm : m' = e.memo := by
      have := innerCall_error_memo opts.equalityCheck compute e.memo st err
        (by rw [hic])
      rw [hic] at this
      exact this
    simp [computeResult, hic, hm]
  · by_cases ht : opts.trackPerformance <;> simp [computeResult, hic, ht]

theorem getOrCreate_lookup_self {State Result : Type}
    (opts : SelectorOptions Result) (σ : FactoryState State Result)
    (ps : List Value) (now : Int) (hWF : WF σ) (hmax : 1 ≤ opts.maxSize) :
    mapLookup (getOrCreateCacheEntry opts σ ps now).2.selectorCache
        (getCacheKeyForParams ps) =
      some (getOrCreateCacheEntry opts σ ps now).1 := by
  obtain ⟨hperm, hnd, hne⟩ := hWF
  set K := getCacheKeyForParams ps with hKdef
  have hndk : (σ.selectorCache.map Prod.fst).Nodup := (hperm.nodup_iff).mpr hnd
  rcases hlook : mapLookup σ.selectorCache K with _ | e
  · have hnotmem : K ∉ σ.selectorCache.map Prod.fst :=
      (mapLookup_eq_none_iff _ _).mp hlook
    have hnotusage : K ∉ σ.keyUsage := fun hmem => hnotmem (hperm.mem_iff.mpr hmem)
    have heraseu : σ.keyUsage.erase K = σ.keyUsage := List.erase_of_not_mem hnotusage
    by_cases hovf : σ.selectorCache.length + 1 ≤ opts.maxSize
    · rw [getOrCreate_miss_noovf opts σ ps now hlook hovf]
      exact mapLookup_mapSet_self _ _ _
    · push_neg at hovf
      rcases husagel : σ.keyUsage with _ | ⟨u, us⟩
      · exfalso
        have hcache : σ.selectorCache.map Prod.fst = [] := by
          have hp := hperm
          rw [husagel] at hp
          exact List.perm_nil.mp hp
        have : σ.selectorCache.length = 0 := by
          have := congrArg List.length hcache
          simpa using this
        omega
      · have husage' : σ.keyUsage.erase K ++ [K] = u :: (us ++ [K]) := by
          rw [heraseu, husagel]
          simp
        have hKneu : K ≠ u := by
          intro hh
          exact hnotusage (by rw [husagel, hh]; simp)
        have hune : u ≠ "" := hne u (by rw [husagel]; simp)
        rw [getOrCreate_miss_ovf opts σ ps now u (us ++ [K]) hlook hovf husage']
        simp only [if_neg hune]
        rw [mapLookup_mapErase_ne _ _ _ hKneu]
        exact mapLookup_mapSet_self _ _ _
  · rcases hexp : isExpiredAt opts.expireAfter e.created now with _ | _
    · rw [getOrCreate_hit opts σ ps now e hlook hexp]
      exact mapLookup_mapSet_self _ _ _
    · rw [getOrCreate_expired_eq opts σ ps now e hndk hlook hexp]
      set σ' : FactoryState State Result :=
        { σ with selectorCache := mapErase σ.selectorCache K } with hσ'
      have hlook' : mapLookup σ'.selectorCache K = none :=
        mapLookup_mapErase_self σ.selectorCache K hndk
      by_cases hovf : σ'.selectorCache.length + 1 ≤ opts.maxSize
      · rw [getOrCreate_miss_noovf opts σ' ps now hlook' hovf]
        exact mapLookup_mapSet_self _ _ _
      · push_neg at hovf
        have hperm' : (σ'.selectorCache.map Prod.fst).Perm (σ.keyUsage.erase K) := by
          simp only [hσ', map_fst_mapErase]
          exact hperm.erase K
        rcases hers : σ.keyUsage.erase K with _ | ⟨u, us⟩
        · exfalso
          have hcache' : σ'.selectorCache.map Prod.fst = [] := by
            have hp := hperm'
            rw [hers] at hp
            exact List.perm_nil.mp hp
          have : σ'.selectorCache.length = 0 := by
            have := congrArg List.length hcache'
            simpa using this
          omega
        · have husage' : σ'.keyUsage.erase K ++ [K] = u :: (us ++ [K]) := by
            show σ.keyUsage.erase K ++ [K] = u :: (us ++ [K])
            rw [hers]
            simp
          have hKnotin : K ∉ σ.keyUsage.erase K := by
            intro hc
            exact ((hnd.mem_erase_iff).mp hc).1 rfl
          have hKneu : K ≠ u := by
            intro hh
            exact hKnotin (by rw [hers, hh]; simp)
          have hune : u ≠ "" :=
            hne u (List.mem_of_mem_erase (by rw [hers]; simp))
          rw [getOrCreate_miss_ovf opts σ' ps now u (us ++ [K]) hlook' hovf husage']
          simp only [if_neg hune]
          rw [mapLookup_mapErase_ne _ _ _ hKneu]
          exact mapLookup_mapSet_self _ _ _

theorem getOrCreate_entry_cases {State Result : Type}
    (opts : SelectorOptions Result) (σ : FactoryState State Result)
    (ps : List Value) (now : Int)
    (hndk : (σ.selectorCache.map Prod.fst).Nodup) :
    (getOrCreateCacheEntry opts σ ps now).1 = freshEntry State Result ps now ∨
    ∃ eold, mapLookup σ.selectorCache (getCacheKeyForParams ps) = some eold ∧
      isExpiredAt opts.expireAfter eold.created now = false ∧
      (getOrCreateCacheEntry opts σ ps now).1 =
        { eold with lastUsed := now, hits := eold.hits + 1 } := by
  set K := getCacheKeyForParams ps with hKdef
  rcases hlook : mapLookup σ.selectorCache K with _ | e
  · left
    by_cases hovf : σ.selectorCache.length + 1 ≤ opts.maxSize
    · rw [getOrCreate_miss_noovf opts σ ps now hlook hovf]
    · push_neg at hovf
      rcases husage' : σ.keyUsage.erase K ++ [K] with _ | ⟨u, us⟩
      · simp at husage'
      · rw [getOrCreate_miss_ovf opts σ ps now u us hlook hovf husage']
  · rcases hexp : isExpiredAt opts.expireAfter e.created now with _ | _
    · right
      exact ⟨e, rfl, hexp, by rw [getOrCreate_hit opts σ ps now e hlook hexp]⟩
    · left
      rw [getOrCreate_expired_eq opts σ ps now e hndk hlook hexp]
      set σ' : FactoryState State Result :=
        { σ with selectorCache := mapErase σ.selectorCache K } with hσ'
      have hlook' : mapLookup σ'.selectorCache K = none :=
        mapLookup_mapErase_self σ.selectorCache K hndk
      by_cases hovf : σ'.selectorCache.length + 1 ≤ opts.maxSize
      · rw [getOrCreate_miss_noovf opts σ' ps now hlook' hovf]
      · push_neg at hovf
        rcases husage' : σ'.keyUsage.erase K ++ [K] with _ | ⟨u, us⟩
        · simp at husage'
        · rw [getOrCreate_miss_ovf opts σ' ps now u us hlook' hovf husage']

theorem factorySelector_after {State Result E : Type} [DecidableEq State]
    (opts : SelectorOptions Result) (f : State → List Value → Except E Result)
    (σ : FactoryState State Result) (st : State) (ps : List Value)
    (now pn : Int) (hWF : WF σ) (hmax : 1 ≤ opts.maxSize) :
    ∃ e', mapLookup (factorySelector opts f σ st ps now pn).2.selectorCache
        (getCacheKeyForParams ps) = some e' ∧
      e'.params = (getOrCreateCacheEntry opts σ ps now).1.params ∧
      e'.created = (getOrCreateCacheEntry opts σ ps now).1.created ∧
      e'.hits = (getOrCreateCacheEntry opts σ ps now).1.hits ∧
      e'.misses = (getOrCreateCacheEntry opts σ ps now).1.misses ∧
      e'.memo = (innerCall opts.equalityCheck
        (fun s => f s (getOrCreateCacheEntry opts σ ps now).1.params)
        (getOrCreateCacheEntry opts σ ps now).1.memo st).2 ∧
      (factorySelector opts f σ st ps now pn).1 = (innerCall opts.equalityCheck
        (fun s => f s (getOrCreateCacheEntry opts σ ps now).1.params)
        (getOrCreateCacheEntry opts σ ps now).1.memo st).1 := by
  have hsur := getOrCreate_lookup_self opts σ ps now hWF hmax
  rcases hg : getOrCreateCacheEntry opts σ ps now with ⟨e0, σg⟩
  rw [hg] at hsur
  have hmem : getCacheKeyForParams ps ∈ σg.selectorCache.map Prod.fst :=
    mapLookup_some_mem hsur
  rcases hc : computeResult opts (fun s => f s e0.params) st e0 pn with ⟨res, e1, delta⟩
  have hcs := computeResult_spec opts (fun s => f s e0.params) st e0 pn
  rw [hc] at hcs
  obtain ⟨hres, hmemo, hparams, hcreated, hhits, hmisses⟩ := hcs
  refine ⟨e1, ?_, ?_, ?_, ?_, ?_, ?_, ?_⟩
  · show mapLookup (factorySelector opts f σ st ps now pn).2.selectorCache
      (getCacheKeyForParams ps) = some e1
    simp only [factorySelector, hg, hc]
    exact mapLookup_mapUpdate_self _ _ _ hmem
  · simpa using hparams
  · simpa using hcreated
  · simpa using hhits
  · simpa using hmisses
  · simpa using hmemo
  · simp only [factorySelector, hg, hc]
    simpa using hres

/-- C1: for every configuration with `maxSize = m`, after any finite
sequence of calls to the parameterized selector (any states, argument
tuples and clock readings, with or without `expireAfter`),
`getStats().cacheSize` is at most `m`; and an insert that causes overflow
(a miss arriving when the store already holds `m` entries) evicts exactly
one entry, leaving the size at exactly `m`. -/
theorem capacity_invariant {State Result E : Type} [DecidableEq State]
    (opts : SelectorOptions Result)
    (selector : State → List Value → Except E Result)
    (calls : List (SelectorCall State)) :
    (getStats opts (runCalls opts selector (initialFactoryState State Result) calls)).cacheSize
      ≤ opts.maxSize ∧
    ∀ (σ : FactoryState State Result) (st : State) (ps : List Value) (now perfNow : Int),
      WF σ → σ.selectorCache.length = opts.maxSize →
      mapLookup σ.selectorCache (getCacheKeyForParams ps) = none →
      (getStats opts (factorySelector opts selector σ st ps now perfNow).2).cacheSize =
        opts.maxSize := by
  constructor
  · exact (WF_runCalls opts selector calls (initialFactoryState State Result)
      (WF_initial State Result) (by simp [initialFactoryState])).2
  · intro σ st ps now perfNow hWF hfull hlook
    obtain ⟨_, _, _, hl, _⟩ :=
      factorySelector_state_fields opts selector σ st ps now perfNow
    show (factorySelector opts selector σ st ps now perfNow).2.selectorCache.length =
      opts.maxSize
    rw [hl]
    exact length_getOrCreate_miss_full opts σ ps now hWF hlook hfull

/-- C2: for every state `S` and argument tuple `A`, two consecutive calls
`f(S, ...A)` (modelled as two calls at the same clock reading) with no
intervening mutation of `S` return identical results, and the second call
increments `totalHits` (and the entry's `hits`) while leaving `totalMisses`
unchanged.  Requires a positive capacity and a nonnegative `expireAfter`
when one is configured. -/
theorem memoization_correctness {State Result E : Type} [DecidableEq State]
    (opts : SelectorOptions Result) (f : State → List Value → Except E Result)
    (σ : FactoryState State Result) (st : State) (ps : List Value)
    (t pn1 pn2 : Int) (hWF : WF σ) (hmax : 1 ≤ opts.maxSize)
    (hexp : ∀ T, opts.expireAfter = some T → 0 ≤ T) :
    (factorySelector opts f (factorySelector opts f σ st ps t pn1).2 st ps t pn2).1 =
      (factorySelector opts f σ st ps t pn1).1 ∧
    (factorySelector opts f (factorySelector opts f σ st ps t pn1).2 st ps t pn2).2.totalHits =
      (factorySelector opts f σ st ps t pn1).2.totalHits + 1 ∧
    (factorySelector opts f (factorySelector opts f σ st ps t pn1).2 st ps t pn2).2.totalMisses =
      (factorySelector opts f σ st ps t pn1).2.totalMisses ∧
    ∃ e1 e2,
      mapLookup (factorySelector opts f σ st ps t pn1).2.selectorCache
        (getCacheKeyForParams ps) = some e1 ∧
      mapLookup
        (factorySelector opts f (factorySelector opts f σ st ps t pn1).2 st ps t pn2).2.selectorCache
        (getCacheKeyForParams ps) = some e2 ∧
      e2.hits = e1.hits + 1 := by
  obtain ⟨hperm, hnd, hne⟩ := hWF
  have hndk : (σ.selectorCache.map Prod.fst).Nodup := (hperm.nodup_iff).mpr hnd
  have hWF' : WF σ := ⟨hperm, hnd, hne⟩
  set K := getCacheKeyForParams ps with hKdef
  set σ1 := (factorySelector opts f σ st ps t pn1).2 with hσ1
  have hWF1 : WF σ1 := WF_factorySelector opts f σ st ps t pn1 hWF'
  obtain ⟨e1, hl1, hp1, hcr1, hh1, hm1, hmemo1, hres1⟩ :=
    factorySelector_after opts f σ st ps t pn1 hWF' hmax
  -- the entry of the first call is not expired at time t
  have hxe1 : isExpiredAt opts.expireAfter e1.created t = false := by
    rcases getOrCreate_entry_cases opts σ ps t hndk with hfresh | ⟨eold, hlo, hxo, heq⟩
    · rw [hcr1, hfresh]
      exact isExpiredAt_eq_false_of_le _ _ _ (by
        intro T hT
        have := hexp T hT
        simp [freshEntry]
        omega)
    · rw [hcr1, heq]
      exact hxo
  -- the second call hits
  have hgc2 := getOrCreate_hit opts σ1 ps t e1 hl1 hxe1
  obtain ⟨hth2, htm2, _, _, _⟩ := factorySelector_state_fields opts f σ1 st ps t pn2
  obtain ⟨e2, hl2, hp2, hcr2, hh2, hm2, hmemo2, hres2⟩ :=
    factorySelector_after opts f σ1 st ps t pn2 hWF1 hmax
  have he02 : (getOrCreateCacheEntry opts σ1 ps t).1 =
      { e1 with lastUsed := t, hits := e1.hits + 1 } := by rw [hgc2]
  have hp02 : (getOrCreateCacheEntry opts σ1 ps t).1.params = e1.params := by
    rw [hgc2]
  have hm02 : (getOrCreateCacheEntry opts σ1 ps t).1.memo = e1.memo := by
    rw [hgc2]
  have hh02 : (getOrCreateCacheEntry opts σ1 ps t).1.hits = e1.hits + 1 := by
    rw [hgc2]
  refine ⟨?_, ?_, ?_, e1, e2, hl1, hl2, ?_⟩
  · -- identical results via idempotence of the inner memoizer
    rw [hres2, hp02, hm02, hp1, hmemo1, innerCall_idem]
    exact hres1.symm
  · rw [hth2, hgc2]
  · rw [htm2, hgc2]
  · rw [hh2, hh02]

theorem getOrCreate_counters_of_none {State Result : Type}
    (opts : SelectorOptions Result) (σ : FactoryState State Result)
    (ps : List Value) (now : Int)
    (hl : mapLookup σ.selectorCache (getCacheKeyForParams ps) = none) :
    (getOrCreateCacheEntry opts σ ps now).2.totalMisses = σ.totalMisses + 1 ∧
    (getOrCreateCacheEntry opts σ ps now).2.totalHits = σ.totalHits := by
  simp only [getOrCreateCacheEntry, hl]
  split <;> (try split) <;> simp

theorem factorySelector_miss_noovf_keys {State Result E : Type} [DecidableEq State]
    (opts : SelectorOptions Result) (f : State → List Value → Except E Result)
    (σ : FactoryState State Result) (st : State) (ps : List Value)
    (now pn : Int)
    (hl : mapLookup σ.selectorCache (getCacheKeyForParams ps) = none)
    (hlen : σ.selectorCache.length + 1 ≤ opts.maxSize) :
    (factorySelector opts f σ st ps now pn).2.selectorCache.map Prod.fst =
      σ.selectorCache.map Prod.fst ++ [getCacheKeyForParams ps] ∧
    (factorySelector opts f σ st ps now pn).2.keyUsage =
      σ.keyUsage.erase (getCacheKeyForParams ps) ++ [getCacheKeyForParams ps] ∧
    (factorySelector opts f σ st ps now pn).2.totalMisses = σ.totalMisses + 1 ∧
    (factorySelector opts f σ st ps now pn).2.totalHits = σ.totalHits := by
  obtain ⟨hth, htm, hkeys, _, husage⟩ :=
    factorySelector_state_fields opts f σ st ps now pn
  have hg := getOrCreate_miss_noovf opts σ ps now hl hlen
  have hnotmem : getCacheKeyForParams ps ∉ σ.selectorCache.map Prod.fst :=
    (mapLookup_eq_none_iff _ _).mp hl
  refine ⟨?_, ?_, ?_, ?_⟩
  · rw [hkeys, hg]
    exact map_fst_mapSet_of_not_mem _ _ _ hnotmem
  · rw [husage, hg]
  · rw [htm, hg]
  · rw [hth, hg]

theorem factorySelector_miss_ovf_keys {State Result E : Type} [DecidableEq State]
    (opts : SelectorOptions Result) (f : State → List Value → Except E Result)
    (σ : FactoryState State Result) (st : State) (ps : List Value)
    (now pn : Int) (u : String) (us : List String)
    (hl : mapLookup σ.selectorCache (getCacheKeyForParams ps) = none)
    (hlen : opts.maxSize < σ.selectorCache.length + 1)
    (husage : σ.keyUsage.erase (getCacheKeyForParams ps) ++
      [getCacheKeyForParams ps] = u :: us)
    (hune : u ≠ "") :
    (factorySelector opts f σ st ps now pn).2.selectorCache.map Prod.fst =
      (σ.selectorCache.map Prod.fst ++ [getCacheKeyForParams ps]).erase u ∧
    (factorySelector opts f σ st ps now pn).2.keyUsage = us ∧
    (factorySelector opts f σ st ps now pn).2.totalMisses = σ.totalMisses + 1 ∧
    (factorySelector opts f σ st ps now pn).2.totalHits = σ.totalHits := by
  obtain ⟨hth, htm, hkeys, _, husg⟩ :=
    factorySelector_state_fields opts f σ st ps now pn
  have hg := getOrCreate_miss_ovf opts σ ps now u us hl hlen husage
  have hnotmem : getCacheKeyForParams ps ∉ σ.selectorCache.map Prod.fst :=
    (mapLookup_eq_none_iff _ _).mp hl
  refine ⟨?_, ?_, ?_, ?_⟩
  · rw [hkeys, hg]
    show ((if u = "" then _ else _) : List (String × CacheEntry State Result)).map
      Prod.fst = _
    rw [if_neg hune, map_fst_mapErase, map_fst_mapSet_of_not_mem _ _ _ hnotmem]
  · rw [husg, hg]
  · rw [htm, hg]
  · rw [hth, hg]

theorem factorySelector_hit_keys {State Result E : Type} [DecidableEq State]
    (opts : SelectorOptions Result) (f : State → List Value → Except E Result)
    (σ : FactoryState State Result) (st : State) (ps : List Value)
    (now pn : Int) (e : CacheEntry State Result)
    (hl : mapLookup σ.selectorCache (getCacheKeyForParams ps) = some e)
    (hx : isExpiredAt opts.expireAfter e.created now = false) :
    (factorySelector opts f σ st ps now pn).2.selectorCache.map Prod.fst =
      σ.selectorCache.map Prod.fst ∧
    (factorySelector opts f σ st ps now pn).2.keyUsage =
      σ.keyUsage.erase (getCacheKeyForParams ps) ++ [getCacheKeyForParams ps] ∧
    (factorySelector opts f σ st ps now pn).2.totalHits = σ.totalHits + 1 ∧
    (factorySelector opts f σ st ps now pn).2.totalMisses = σ.totalMisses := by
  obtain ⟨hth, htm, hkeys, _, husg⟩ :=
    factorySelector_state_fields opts f σ st ps now pn
  have hg := getOrCreate_hit opts σ ps now e hl hx
  have hmem : getCacheKeyForParams ps ∈ σ.selectorCache.map Prod.fst :=
    mapLookup_some_mem hl
  refine ⟨?_, ?_, ?_, ?_⟩
  · rw [hkeys, hg]
    exact map_fst_mapSet_of_mem _ _ _ hmem
  · rw [husg, hg]
  · rw [hth, hg]
  · rw [htm, hg]

theorem factorySelector_counters_of_none {State Result E : Type} [DecidableEq State]
    (opts : SelectorOptions Result) (f : State → List Value → Except E Result)
    (σ : FactoryState State Result) (st : State) (ps : List Value)
    (now pn : Int)
    (hl : mapLookup σ.selectorCache (getCacheKeyForParams ps) = none) :
    (factorySelector opts f σ st ps now pn).2.totalMisses = σ.totalMisses + 1 ∧
    (factorySelector opts f σ st ps now pn).2.totalHits = σ.totalHits := by
  obtain ⟨hth, htm, _, _, _⟩ := factorySelector_state_fields opts f σ st ps now pn
  have hg := getOrCreate_counters_of_none opts σ ps now hl
  exact ⟨htm ▸ hg.1, hth ▸ hg.2⟩

/-- C3: with `maxSize = 2` and no `expireAfter`, calling the selector with
argument tuples `a`, then `b`, then `c` (with pairwise distinct cache keys)
evicts exactly `a`'s entry — the least-recently-used key, the head of the
LRU order: afterwards `a`'s key is absent while `b`'s and `c`'s entries
remain; re-calling with `b` and then `c` are hits, and a subsequent call
with `a` is a fresh miss. -/
theorem lru_eviction_order {State Result E : Type} [DecidableEq State]
    (opts : SelectorOptions Result) (f : State → List Value → Except E Result)
    (hms : opts.maxSize = 2) (hexp : opts.expireAfter = none)
    (pa pb pc : List Value)
    (hab : getCacheKeyForParams pa ≠ getCacheKeyForParams pb)
    (hac : getCacheKeyForParams pa ≠ getCacheKeyForParams pc)
    (hbc : getCacheKeyForParams pb ≠ getCacheKeyForParams pc)
    (st1 st2 st3 st4 st5 st6 : State)
    (t1 t2 t3 t4 t5 t6 p1 p2 p3 p4 p5 p6 : Int) :
    ∀ σ3, σ3 = (factorySelector opts f (factorySelector opts f (factorySelector opts f
        (initialFactoryState State Result) st1 pa t1 p1).2 st2 pb t2 p2).2
        st3 pc t3 p3).2 →
      (mapLookup σ3.selectorCache (getCacheKeyForParams pa) = none ∧
        (∃ eb, mapLookup σ3.selectorCache (getCacheKeyForParams pb) = some eb) ∧
        (∃ ec, mapLookup σ3.selectorCache (getCacheKeyForParams pc) = some ec)) ∧
      ∀ σ4, σ4 = (factorySelector opts f σ3 st4 pb t4 p4).2 →
        (σ4.totalHits = σ3.totalHits + 1 ∧ σ4.totalMisses = σ3.totalMisses) ∧
        ∀ σ5, σ5 = (factorySelector opts f σ4 st5 pc t5 p5).2 →
          (σ5.totalHits = σ4.totalHits + 1 ∧ σ5.totalMisses = σ4.totalMisses) ∧
          ((factorySelector opts f σ5 st6 pa t6 p6).2.totalMisses = σ5.totalMisses + 1 ∧
            (factorySelector opts f σ5 st6 pa t6 p6).2.totalHits = σ5.totalHits) := by
  intro σ3 hσ3
  set ka := getCacheKeyForParams pa with hka
  set kb := getCacheKeyForParams pb with hkb
  set kc := getCacheKeyForParams pc with hkc
  set σ1 := (factorySelector opts f (initialFactoryState State Result)
    st1 pa t1 p1).2 with hσ1
  set σ2 := (factorySelector opts f σ1 st2 pb t2 p2).2 with hσ2
  -- step 1: miss on an empty store
  have hl1 : mapLookup (initialFactoryState State Result).selectorCache ka = none := rfl
  have hlen1 : (initialFactoryState State Result).selectorCache.length + 1 ≤
      opts.maxSize := by
    simp [initialFactoryState, hms]
  obtain ⟨hk1, hu1, hm1, hh1⟩ := factorySelector_miss_noovf_keys opts f
    (initialFactoryState State Result) st1 pa t1 p1 hl1 hlen1
  rw [← hσ1] at hk1 hu1
  have hk1' : σ1.selectorCache.map Prod.fst = [ka] := by
    rw [hk1]
    rfl
  have hu1' : σ1.keyUsage = [ka] := by
    rw [hu1]
    rfl
  -- step 2: miss, still under capacity
  have hl2 : mapLookup σ1.selectorCache kb = none := by
    rw [mapLookup_eq_none_iff, hk1']
    simp [Ne.symm hab]
  have hlen2 : σ1.selectorCache.length + 1 ≤ opts.maxSize := by
    have hlen : σ1.selectorCache.length = 1 := by
      have := congrArg List.length hk1'
      simpa using this
    rw [hlen, hms]
  obtain ⟨hk2, hu2, hm2, hh2⟩ := factorySelector_miss_noovf_keys opts f
    σ1 st2 pb t2 p2 hl2 hlen2
  rw [← hσ2] at hk2 hu2
  have hk2' : σ2.selectorCache.map Prod.fst = [ka, kb] := by
    rw [hk2, hk1']
    rfl
  have hu2' : σ2.keyUsage = [ka, kb] := by
    rw [hu2, hu1', List.erase_of_not_mem (by simp [Ne.symm hab])]
    rfl
  -- step 3: miss over capacity, evicting the LRU head (a's key)
  have hl3 : mapLookup σ2.selectorCache kc = none := by
    rw [mapLookup_eq_none_iff, hk2']
    simp [Ne.symm hac, Ne.symm hbc]
  have hlen3 : opts.maxSize < σ2.selectorCache.length + 1 := by
    have hlen : σ2.selectorCache.length = 2 := by
      have := congrArg List.length hk2'
      simpa using this
    rw [hlen, hms]
    omega
  have husg3 : σ2.keyUsage.erase kc ++ [kc] = ka :: [kb, kc] := by
    rw [hu2', List.erase_of_not_mem (by simp [Ne.symm hac, Ne.symm hbc])]
    rfl
  obtain ⟨hk3, hu3, hm3, hh3⟩ := factorySelector_miss_ovf_keys opts f
    σ2 st3 pc t3 p3 ka [kb, kc] hl3 hlen3 husg3 (getCacheKeyForParams_ne_empty pa)
  rw [← hσ3] at hk3 hu3
  have hk3' : σ3.selectorCache.map Prod.fst = [kb, kc] := by
    rw [hk3, hk2']
    simp
  -- a's entry is gone, b's and c's remain
  have hlanone : mapLookup σ3.selectorCache ka = none := by
    rw [mapLookup_eq_none_iff, hk3']
    simp [hab, hac]
  have hlbsome : (mapLookup σ3.selectorCache kb).isSome := by
    rw [mapLookup_isSome_iff, hk3']
    simp
  have hlcsome : (mapLookup σ3.selectorCache kc).isSome := by
    rw [mapLookup_isSome_iff, hk3']
    simp
  obtain ⟨eb, heb⟩ := Option.isSome_iff_exists.mp hlbsome
  obtain ⟨ec, hec⟩ := Option.isSome_iff_exists.mp hlcsome
  refine ⟨⟨hlanone, ⟨eb, heb⟩, ⟨ec, hec⟩⟩, ?_⟩
  -- step 4: hit on b
  intro σ4 hσ4
  have hxb : isExpiredAt opts.expireAfter eb.created t4 = false := by
    rw [hexp]
    rfl
  obtain ⟨hk4, hu4, hh4, hm4⟩ := factorySelector_hit_keys opts f σ3 st4 pb t4 p4
    eb heb hxb
  rw [← hσ4] at hk4 hh4 hm4
  refine ⟨⟨hh4, hm4⟩, ?_⟩
  -- step 5: hit on c
  intro σ5 hσ5
  have hlc4 : (mapLookup σ4.selectorCache kc).isSome := by
    rw [mapLookup_isSome_iff, hk4, hk3']
    simp
  obtain ⟨ec4, hec4⟩ := Option.isSome_iff_exists.mp hlc4
  have hxc : isExpiredAt opts.expireAfter ec4.created t5 = false := by
    rw [hexp]
    rfl
  obtain ⟨hk5, hu5, hh5, hm5⟩ := factorySelector_hit_keys opts f σ4 st5 pc t5 p5
    ec4 hec4 hxc
  rw [← hσ5] at hk5 hh5 hm5
  refine ⟨⟨hh5, hm5⟩, ?_⟩
  -- step 6: a fresh miss on a's evicted key
  have hla5 : mapLookup σ5.selectorCache ka = none := by
    rw [mapLookup_eq_none_iff, hk5, hk4, hk3']
    simp [hab, hac]
  exact factorySelector_counters_of_none opts f σ5 st6 pa t6 p6 hla5

/-- C4: with `expireAfter = T > 0` configured, for a stored entry created at
`t0` (`lastUsed` arbitrary — expiry is measured from `created`), a call with
identical arguments at `t0 + T + 1` deletes the entry and counts as a miss,
recreating a fresh entry created at that instant; a call at `t0 + T - 1` is
a hit; and in general a call at `now` is a miss exactly when
`now - created > T`. -/
theorem expiry_measured_from_created {State Result E : Type} [DecidableEq State]
    (opts : SelectorOptions Result) (f : State → List Value → Except E Result)
    (T : Int) (hT : opts.expireAfter = some T) (hTpos : 0 < T)
    (σ : FactoryState State Result) (hWF : WF σ) (hmax : 1 ≤ opts.maxSize)
    (ps : List Value) (e : CacheEntry State Result) (t0 : Int)
    (hl : mapLookup σ.selectorCache (getCacheKeyForParams ps) = some e)
    (hc : e.created = t0) (st : State) (pn : Int) :
    ((factorySelector opts f σ st ps (t0 + T + 1) pn).2.totalMisses =
        σ.totalMisses + 1 ∧
      (factorySelector opts f σ st ps (t0 + T + 1) pn).2.totalHits = σ.totalHits ∧
      ∃ e', mapLookup (factorySelector opts f σ st ps (t0 + T + 1) pn).2.selectorCache
          (getCacheKeyForParams ps) = some e' ∧
        e'.created = t0 + T + 1 ∧ e'.hits = 0 ∧ e'.misses = 1) ∧
    ((factorySelector opts f σ st ps (t0 + T - 1) pn).2.totalHits =
        σ.totalHits + 1 ∧
      (factorySelector opts f σ st ps (t0 + T - 1) pn).2.totalMisses = σ.totalMisses) ∧
    ∀ now : Int,
      ((factorySelector opts f σ st ps now pn).2.totalMisses = σ.totalMisses + 1 ↔
        T < now - t0) := by
  obtain ⟨hperm, hnd, hne⟩ := hWF
  have hWF' : WF σ := ⟨hperm, hnd, hne⟩
  have hndk : (σ.selectorCache.map Prod.fst).Nodup := (hperm.nodup_iff).mpr hnd
  set K := getCacheKeyForParams ps with hK
  -- a reusable account of what happens on an expired call
  have hmiss : ∀ now : Int, isExpiredAt opts.expireAfter e.created now = true →
      (factorySelector opts f σ st ps now pn).2.totalMisses = σ.totalMisses + 1 ∧
      (factorySelector opts f σ st ps now pn).2.totalHits = σ.totalHits ∧
      (getOrCreateCacheEntry opts σ ps now).1 = freshEntry State Result ps now := by
    intro now hx
    have hred := getOrCreate_expired_eq opts σ ps now e hndk hl hx
    have hl' : mapLookup (mapErase σ.selectorCache K) K = none :=
      mapLookup_mapErase_self σ.selectorCache K hndk
    have hcnt := getOrCreate_counters_of_none opts
      { σ with selectorCache := mapErase σ.selectorCache K } ps now hl'
    obtain ⟨hth, htm, _, _, _⟩ := factorySelector_state_fields opts f σ st ps now pn
    refine ⟨?_, ?_, ?_⟩
    · rw [htm, hred]
      exact hcnt.1
    · rw [hth, hred]
      exact hcnt.2
    · rw [hred]
      have hndk' : ((mapErase σ.selectorCache K).map Prod.fst).Nodup := by
        rw [map_fst_mapErase]
        exact hndk.erase K
      rcases getOrCreate_entry_cases opts
        { σ with selectorCache := mapErase σ.selectorCache K } ps now hndk' with
        hfresh | ⟨eold, hlo, _, _⟩
      · exact hfresh
      · rw [hl'] at hlo
        exact absurd hlo (by simp)
  constructor
  · -- the call at t0 + T + 1 expires the entry
    have hx : isExpiredAt opts.expireAfter e.created (t0 + T + 1) = true := by
      rw [hT, hc]
      simp [isExpiredAt]
      omega
    obtain ⟨hm, hh, hfresh⟩ := hmiss (t0 + T + 1) hx
    refine ⟨hm, hh, ?_⟩
    obtain ⟨e', hle', _, hcr', hh', hm', _, _⟩ :=
      factorySelector_after opts f σ st ps (t0 + T + 1) pn hWF' hmax
    refine ⟨e', hle', ?_, ?_, ?_⟩
    · rw [hcr', hfresh]
      rfl
    · rw [hh', hfresh]
      rfl
    · rw [hm', hfresh]
      rfl
  refine ⟨?_, ?_⟩
  · -- the call at t0 + T - 1 hits
    have hx : isExpiredAt opts.expireAfter e.created (t0 + T - 1) = false := by
      rw [hT, hc]
      simp [isExpiredAt]
      omega
    obtain ⟨_, _, hh, hm⟩ := factorySelector_hit_keys opts f σ st ps (t0 + T - 1) pn
      e hl hx
    exact ⟨hh, hm⟩
  · -- strict boundary
    intro now
    by_cases hlt : T < now - t0
    · have hx : isExpiredAt opts.expireAfter e.created now = true := by
        rw [hT, hc]
        simp [isExpiredAt]
        omega
      obtain ⟨hm, _, _⟩ := hmiss now hx
      simp [hm, hlt]
    · have hx : isExpiredAt opts.expireAfter e.created now = false := by
        rw [hT, hc]
        simp [isExpiredAt]
        omega
      obtain ⟨_, _, _, hm⟩ := factorySelector_hit_keys opts f σ st ps now pn e hl hx
      rw [hm]
      simp [hlt]

/-- C5 counterexample: the claim asserts the fallback encoder emits an
object's top-level key names in sorted order, but for the single argument
`{b: 1, a: 2}` the source joins `Object.keys` in property order, producing
`"obj_b_a"` where the claimed sorted form is `"obj_a_b"`. -/
theorem fallback_encoder_sorted_counterexample :
    fallbackKeyForParams [Value.vobj [("b", Value.vint 1), ("a", Value.vint 2)]] =
      "obj_b_a" ∧
    fallbackKeyClaim [Value.vobj [("b", Value.vint 1), ("a", Value.vint 2)]] =
      "obj_a_b" ∧
    fallbackKeyForParams [Value.vobj [("b", Value.vint 1), ("a", Value.vint 2)]] ≠
      fallbackKeyClaim [Value.vobj [("b", Value.vint 1), ("a", Value.vint 2)]] := by
  refine ⟨by decide, by decide, by decide⟩

/-- C5 (amended): the fallback encoder maps `null` to `"null"`, `undefined`
to `"undefined"`, a function to `"fn_"` plus its name (or `"anonymous"` when
the name is empty), an object to `"obj_"` plus its top-level key names in
the object's own property order joined by `"_"`, and any other value to
`String(value)`, with the tuple elements joined by `"|"`. -/
theorem fallback_encoder_amended (params : List Value) :
    fallbackKeyForParams params = fallbackKeyAmended params := by
  unfold fallbackKeyForParams fallbackKeyAmended
  have hone : ∀ v, fallbackOne v = fallbackOneAmended v := by
    intro v
    cases v with
    | vfunc name src =>
      by_cases h : name = "" <;> simp [fallbackOne, fallbackOneAmended, h]
    | vbool b => cases b <;> rfl
    | _ => rfl
  rw [List.map_congr_left (fun v _ => hone v)]

/-- C7: for every source array and `pageSize > 0`, a requested page at or
beyond the last valid page yields exactly the last valid page's result, the
returned page is never empty unless the source array is empty, and for a
3-element array with `pageSize = 2` and `page = 5` the selector returns the
third item alone with `currentPage = 1` and `hasNextPage = false`. -/
theorem pagination_clamps_to_last_page {α : Type} (array : List α)
    (page pageSize : Int) (hps : 0 < pageSize) :
    (mathCeilDiv (array.length : Int) pageSize - 1 ≤ page →
      paginationSelectorBody array page pageSize =
        paginationSelectorBody array
          (mathCeilDiv (array.length : Int) pageSize - 1) pageSize) ∧
    (array ≠ [] → (paginationSelectorBody array page pageSize).items ≠ []) ∧
    (∀ a b c : α, paginationSelectorBody [a, b, c] 5 2 =
      { items := [c],
        pagination :=
          { totalItems := 3, totalPages := 2, currentPage := 1, pageSize := 2,
            hasNextPage := false, hasPreviousPage := true } }) := by
  refine ⟨?_, ?_, ?_⟩
  · intro h
    have hmin : min page (mathCeilDiv (array.length : Int) pageSize - 1) =
        min (mathCeilDiv (array.length : Int) pageSize - 1)
          (mathCeilDiv (array.length : Int) pageSize - 1) := by
      rw [min_eq_right h, min_self]
    simp only [paginationSelectorBody]
    rw [hmin]
  · intro hne
    have hn1 : 1 ≤ (array.length : Int) := by
      have := List.length_pos.mpr hne
      omega
    set n : Int := (array.length : Int) with hn
    set tp : Int := mathCeilDiv n pageSize with htp
    -- ceiling bounds via Euclidean division
    have hfd : (-n).fdiv pageSize = (-n) / pageSize :=
      Int.fdiv_eq_ediv _ (le_of_lt hps)
    have hdm := Int.ediv_add_emod (-n) pageSize
    have hr0 : 0 ≤ (-n) % pageSize := Int.emod_nonneg _ (by omega)
    have hrlt : (-n) % pageSize < pageSize := Int.emod_lt_of_pos _ hps
    have htpmul : pageSize * tp = n + (-n) % pageSize := by
      rw [htp, mathCeilDiv, hfd]
      have : pageSize * ((-n) / pageSize) = -n - (-n) % pageSize := by omega
      rw [mul_neg, this]
      ring
    have htp1 : 1 ≤ tp := by
      by_contra hc
      push_neg at hc
      have h0 : tp ≤ 0 := by omega
      have : pageSize * tp ≤ 0 := mul_nonpos_iff.mpr (Or.inl ⟨le_of_lt hps, h0⟩)
      omega
    have hlastlt : pageSize * (tp - 1) < n := by
      have : pageSize * (tp - 1) = pageSize * tp - pageSize := by ring
      omega
    -- the normalized page is within range, so the slice is nonempty
    set np : Int := max 0 (min page (tp - 1)) with hnp
    have hnp0 : 0 ≤ np := le_max_left _ _
    have hnple : np ≤ tp - 1 := max_le (by omega) (min_le_right _ _)
    have hstart0 : 0 ≤ np * pageSize := mul_nonneg hnp0 (le_of_lt hps)
    have hstartlt : np * pageSize < n := by
      have h1 : np * pageSize ≤ (tp - 1) * pageSize :=
        mul_le_mul_of_nonneg_right hnple (le_of_lt hps)
      have h2 : (tp - 1) * pageSize = pageSize * (tp - 1) := by ring
      omega
    show jsSlice array (np * pageSize) (np * pageSize + pageSize) ≠ []
    set s : Int := np * pageSize with hs
    simp only [jsSlice]
    rw [← hn]
    rw [if_neg (by omega), if_neg (by omega)]
    have hsmin : min s n = s := min_eq_left (le_of_lt hstartlt)
    have hemin : s + 1 ≤ min (s + pageSize) n := le_min (by omega) (by omega)
    rw [hsmin]
    have hlen : ((array.drop s.toNat).take ((min (s + pageSize) n).toNat - s.toNat)).length =
        min ((min (s + pageSize) n).toNat - s.toNat) (array.length - s.toNat) := by
      simp [List.length_take, List.length_drop]
    intro hnil
    rw [hnil] at hlen
    simp only [List.length_nil] at hlen
    omega
  · intro a b c
    have hlen : (([a, b, c] : List α).length : Int) = 3 := by norm_num
    have htp3 : mathCeilDiv 3 2 = 2 := by decide
    have hnorm : max (0 : Int) (min 5 (2 - 1)) = 1 := by decide
    simp only [paginationSelectorBody, hlen, htp3, hnorm]
    norm_num [jsSlice]
    rw [show Int.toNat 3 = 3 from rfl, show Int.toNat 2 = 2 from rfl]
    rfl

/-- C9 (code bug evidence): with `trackPerformance` enabled, a successful
invocation sets the entry's `executionTime` to the raw `performance.now()`
reading — the code adds `performance.now() - cacheEntry.executionTime`
without ever capturing a start time, so the recorded quantity is the wall
clock value, independent of how long the computation actually ran, and the
factory-wide total receives that same clock-derived delta rather than the
invocation's duration. -/
theorem trackPerformance_records_clock_reading {State Result E : Type}
    [DecidableEq State] (opts : SelectorOptions Result)
    (compute : State → Except E Result) (st : State)
    (e : CacheEntry State Result) (perfNow : Int)
    (htp : opts.trackPerformance = true) (r : Result)
    (hok : (innerCall opts.equalityCheck compute e.memo st).1 = .ok r) :
    (computeResult opts compute st e perfNow).2.1.executionTime = perfNow ∧
    (computeResult opts compute st e perfNow).2.2 = perfNow - e.executionTime := by
  rcases hic : innerCall opts.equalityCheck compute e.memo st with ⟨res, m'⟩
  rw [hic] at hok
  simp only at hok
  subst hok
  simp only [computeResult, hic, htp, if_pos]
  constructor
  · omega
  · trivial

/-- C10: when the wrapped selector throws on the first call for an argument
tuple (its key absent from the store), the exception propagates to the
caller, but the factory has already inserted a fresh cache entry for that
key (hits 0, misses 1, nothing memoized) and incremented `totalMisses`;
neither the insertion nor the counter update is rolled back. -/
theorem throwing_selector_records_miss {State Result E : Type} [DecidableEq State]
    (opts : SelectorOptions Result) (f : State → List Value → Except E Result)
    (σ : FactoryState State Result) (hWF : WF σ) (hmax : 1 ≤ opts.maxSize)
    (st : State) (ps : List Value) (now pn : Int) (err : E)
    (hl : mapLookup σ.selectorCache (getCacheKeyForParams ps) = none)
    (hthrow : f st ps = .error err) :
    (factorySelector opts f σ st ps now pn).1 = .error err ∧
    (factorySelector opts f σ st ps now pn).2.totalMisses = σ.totalMisses + 1 ∧
    (factorySelector opts f σ st ps now pn).2.totalHits = σ.totalHits ∧
    ∃ e', mapLookup (factorySelector opts f σ st ps now pn).2.selectorCache
        (getCacheKeyForParams ps) = some e' ∧
      e'.hits = 0 ∧ e'.misses = 1 ∧ e'.memo = none := by
  obtain ⟨hperm, hnd, hne⟩ := hWF
  have hWF' : WF σ := ⟨hperm, hnd, hne⟩
  have hndk : (σ.selectorCache.map Prod.fst).Nodup := (hperm.nodup_iff).mpr hnd
  have hfresh : (getOrCreateCacheEntry opts σ ps now).1 =
      freshEntry State Result ps now := by
    rcases getOrCreate_entry_cases opts σ ps now hndk with h | ⟨eold, hlo, _, _⟩
    · exact h
    · rw [hl] at hlo
      exact absurd hlo (by simp)
  obtain ⟨e', hle', hp', hcr', hh', hm', hmemo', hres'⟩ :=
    factorySelector_after opts f σ st ps now pn hWF' hmax
  have hmemofresh : (getOrCreateCacheEntry opts σ ps now).1.memo = none := by
    rw [hfresh]
    rfl
  have hpsfresh : (getOrCreateCacheEntry opts σ ps now).1.params = ps := by
    rw [hfresh]
    rfl
  have hinner : innerCall opts.equalityCheck
      (fun s => f s (getOrCreateCacheEntry opts σ ps now).1.params)
      (getOrCreateCacheEntry opts σ ps now).1.memo st =
      (.error err, none) := by
    rw [hmemofresh, hpsfresh]
    simp [innerCall, hthrow]
  obtain ⟨hmis, hhit⟩ := factorySelector_counters_of_none opts f σ st ps now pn hl
  refine ⟨?_, hmis, hhit, e', hle', ?_, ?_, ?_⟩
  · rw [hres', hinner]
  · rw [hh', hfresh]
    rfl
  · rw [hm', hfresh]
    rfl
  · rw [hmemo', hinner]

/-- Does `invalidateCache` remove the entry stored under this key, for a
given predicate: its decode must succeed and the decoded tuple must satisfy
the predicate. -/
def removedByPredicate (predicate : Value → Bool) (k : String) : Bool :=
  match jsonParse k with
  | some params => predicate params
  | none => false

theorem keysToRemove_eq_filter {State Result : Type}
    (predicate : Value → Bool) (m : List (String × CacheEntry State Result)) :
    (m.filterMap (fun kv =>
      match jsonParse kv.1 with
      | some params => if predicate params then some kv.1 else none
      | none => none)) =
    (m.filter (fun kv => removedByPredicate predicate kv.1)).map Prod.fst := by
  induction m with
  | nil => rfl
  | cons kv rest ih =>
    rcases hj : jsonParse kv.1 with _ | v
    · simp [List.filterMap_cons, List.filter_cons, hj, removedByPredicate, ih]
    · by_cases hp : predicate v
      · simp [List.filterMap_cons, List.filter_cons, hj, hp, removedByPredicate, ih]
      · simp [List.filterMap_cons, List.filter_cons, hj, hp, removedByPredicate, ih]

theorem mapErase_eq_filter {α : Type} (m : List (String × α)) (k : String)
    (hnd : (m.map Prod.fst).Nodup) :
    mapErase m k = m.filter (fun kv => decide (kv.1 ≠ k)) := by
  induction m with
  | nil => rfl
  | cons kv rest ih =>
    obtain ⟨k0, v0⟩ := kv
    simp only [List.map_cons, List.nodup_cons] at hnd
    by_cases h : k0 = k
    · subst h
      have hrest : rest.filter (fun kv => !decide (kv.1 = k0)) = rest := by
        apply List.filter_eq_self.mpr
        intro kv hkv
        simp only [Bool.not_eq_true', decide_eq_false_iff_not]
        intro hc
        exact hnd.1 (hc ▸ List.mem_map_of_mem Prod.fst hkv)
      simp [mapErase, List.filter_cons, hrest]
    · rw [mapErase, if_neg h]
      simp [List.filter_cons, h, ih hnd.2]

theorem foldl_mapErase_eq_filter {α : Type} (ks : List String) :
    ∀ (m : List (String × α)), (m.map Prod.fst).Nodup →
    ks.foldl (fun acc k => mapErase acc k) m =
      m.filter (fun kv => decide (kv.1 ∉ ks)) := by
  induction ks with
  | nil =>
    intro m _
    simp [List.filter_eq_self]
  | cons k ks ih =>
    intro m hnd
    have h1 : (k :: ks).foldl (fun acc k => mapErase acc k) m =
        ks.foldl (fun acc k => mapErase acc k) (mapErase m k) := rfl
    have hnd' : ((mapErase m k).map Prod.fst).Nodup := by
      rw [map_fst_mapErase]
      exact hnd.erase k
    rw [h1, ih (mapErase m k) hnd', mapErase_eq_filter m k hnd,
      List.filter_filter]
    apply List.filter_congr
    intro kv _
    by_cases h1 : kv.1 = k <;> by_cases h2 : kv.1 ∈ ks <;> simp [h1, h2]

theorem foldl_listErase_eq_filter (ks : List String) :
    ∀ (u : List String), u.Nodup →
    ks.foldl (fun acc k => acc.erase k) u =
      u.filter (fun k => decide (k ∉ ks)) := by
  induction ks with
  | nil =>
    intro u _
    simp [List.filter_eq_self]
  | cons k ks ih =>
    intro u hnd
    have h1 : (k :: ks).foldl (fun acc k => acc.erase k) u =
        ks.foldl (fun acc k => acc.erase k) (u.erase k) := rfl
    rw [h1, ih (u.erase k) (hnd.erase k), List.Nodup.erase_eq_filter hnd,
      List.filter_filter]
    apply List.filter_congr
    intro x _
    by_cases h1 : x = k <;> by_cases h2 : x ∈ ks <;> simp [h1, h2]

/-- A concrete wrapped selector used by the closed witness statements: it
returns the number of arguments it received. -/
def witnessSelector : Unit → List Value → Except Unit Nat :=
  fun _ ps => .ok ps.length

/-- A concrete call record for the witness statements. -/
def callWith (ps : List Value) (t : Int) : SelectorCall Unit := ⟨(), ps, t, 0⟩

/-- The predicate `params[0] > 1` of the specification's invalidation
scenario, over the decoded JSON value (a non-array or empty decode gives
`undefined > 1`, which is false). -/
def predFirstGt1 : Value → Bool := fun v =>
  match v with
  | .varr (.vint n :: _) => decide (n > 1)
  | _ => false

/-- The factory state after inserting entries for the argument tuples
`(1)`, `(2)` and `(3)` into a fresh default-configured factory. -/
def invalidationScenarioState : FactoryState Unit Nat :=
  runCalls (defaultOptions Nat) witnessSelector (initialFactoryState Unit Nat)
    [callWith [.vint 1] 0, callWith [.vint 2] 0, callWith [.vint 3] 0]

/-- C8: `invalidateCache` with a predicate decodes each stored key, removes
exactly the entries whose decode succeeds and satisfies the predicate —
from both the mapping and the LRU order list — leaves keys whose decode
fails untouched, and returns the removed count; with no predicate it clears
the whole store and returns nothing.  Concretely, after inserting entries
for args 1, 2, 3, invalidating with `params[0] > 1` returns 2 and leaves
`cacheSize = 1`. -/
theorem invalidate_by_predicate {State Result : Type}
    (σ : FactoryState State Result) (hWF : WF σ) (predicate : Value → Bool) :
    ((invalidateCache σ none).1 = none ∧
      (invalidateCache σ none).2.selectorCache = [] ∧
      (invalidateCache σ none).2.keyUsage = []) ∧
    ((invalidateCache σ (some predicate)).1 =
        some ((σ.selectorCache.filter
          (fun kv => removedByPredicate predicate kv.1)).length) ∧
      (invalidateCache σ (some predicate)).2.selectorCache =
        σ.selectorCache.filter (fun kv => !removedByPredicate predicate kv.1) ∧
      (invalidateCache σ (some predicate)).2.keyUsage =
        σ.keyUsage.filter (fun k => !removedByPredicate predicate k)) ∧
    ((invalidateCache invalidationScenarioState (some predFirstGt1)).1 = some 2 ∧
      (getStats (defaultOptions Nat)
        (invalidateCache invalidationScenarioState (some predFirstGt1)).2).cacheSize
        = 1) := by
  obtain ⟨hperm, hnd, hne⟩ := hWF
  have hndk : (σ.selectorCache.map Prod.fst).Nodup := (hperm.nodup_iff).mpr hnd
  refine ⟨⟨rfl, rfl, rfl⟩, ?_, by decide, by decide⟩
  have hks : (σ.selectorCache.filterMap (fun kv =>
      match jsonParse kv.1 with
      | some params => if predicate params then some kv.1 else none
      | none => none)) =
      (σ.selectorCache.filter
        (fun kv => removedByPredicate predicate kv.1)).map Prod.fst :=
    keysToRemove_eq_filter predicate σ.selectorCache
  have hmemiff : ∀ k, (k ∈ (σ.selectorCache.filter
      (fun kv => removedByPredicate predicate kv.1)).map Prod.fst ↔
      removedByPredicate predicate k = true ∧ k ∈ σ.selectorCache.map Prod.fst) := by
    intro k
    constructor
    · intro hk
      obtain ⟨kv, hkv, hfst⟩ := List.mem_map.mp hk
      have := List.mem_filter.mp hkv
      exact ⟨hfst ▸ this.2, hfst ▸ List.mem_map_of_mem Prod.fst this.1⟩
    · intro ⟨hrem, hk⟩
      obtain ⟨kv, hkv, hfst⟩ := List.mem_map.mp hk
      exact List.mem_map.mpr ⟨kv, List.mem_filter.mpr ⟨hkv, hfst ▸ hrem⟩, hfst⟩
  refine ⟨?_, ?_, ?_⟩
  · show (some (σ.selectorCache.filterMap _).length : Option Nat) = _
    rw [hks]
    simp
  · show (σ.selectorCache.filterMap _).foldl (fun m k => mapErase m k)
      σ.selectorCache = _
    rw [hks, foldl_mapErase_eq_filter _ σ.selectorCache hndk]
    apply List.filter_congr
    intro kv hkv
    have hmm := hmemiff kv.1
    by_cases hrem : removedByPredicate predicate kv.1 = true
    · simp only [hrem, Bool.not_true, decide_eq_false_iff_not]
      intro hc
      exact hc (hmm.mpr ⟨hrem, List.mem_map_of_mem Prod.fst hkv⟩)
    · simp only [Bool.not_eq_true] at hrem
      simp only [hrem, Bool.not_false, decide_eq_true_eq]
      intro hc
      have := (hmm.mp hc).1
      rw [hrem] at this
      exact Bool.false_ne_true this
  · show (σ.selectorCache.filterMap _).foldl (fun u k => u.erase k)
      σ.keyUsage = _
    rw [hks, foldl_listErase_eq_filter _ σ.keyUsage hnd]
    apply List.filter_congr
    intro k hk
    have hmm := hmemiff k
    have hkc : k ∈ σ.selectorCache.map Prod.fst := hperm.mem_iff.mpr hk
    by_cases hrem : removedByPredicate predicate k = true
    · simp only [hrem, Bool.not_true, decide_eq_false_iff_not]
      intro hc
      exact hc (hmm.mpr ⟨hrem, hkc⟩)
    · simp only [Bool.not_eq_true] at hrem
      simp only [hrem, Bool.not_false, decide_eq_true_eq]
      intro hc
      have := (hmm.mp hc).1
      rw [hrem] at this
      exact Bool.false_ne_true this

/-! ### Injectivity of the primitive encodings -/

theorem digitVal_digitChar : ∀ d, d < 10 → digitVal (digitChar d) = d := by decide

theorem digitChar_code : ∀ d, d < 10 →
    48 ≤ (digitChar d).toNat ∧ (digitChar d).toNat ≤ 57 := by decide

theorem digitsVal_append_singleton (ds : List Char) (c : Char) :
    digitsVal (ds ++ [c]) = 10 * digitsVal ds + digitVal c := by
  simp [digitsVal, List.foldl_append]

theorem digitsVal_natDecDigitsAux :
    ∀ fuel n, n < fuel → digitsVal (natDecDigitsAux fuel n) = n := by
  intro fuel
  induction fuel with
  | zero => intro n h; omega
  | succ fuel ih =>
    intro n h
    rw [natDecDigitsAux]
    by_cases h10 : n < 10
    · rw [if_pos h10]
      have := digitVal_digitChar n h10
      simp [digitsVal]
      omega
    · rw [if_neg h10]
      have hlt : n / 10 < fuel := by
        have := Nat.div_lt_self (by omega : 0 < n) (by omega : (1 : Nat) < 10)
        omega
      rw [digitsVal_append_singleton, ih (n / 10) hlt,
        digitVal_digitChar (n % 10) (by omega)]
      omega

theorem digitsVal_natDecDigits (n : Nat) : digitsVal (natDecDigits n) = n :=
  digitsVal_natDecDigitsAux (n + 1) n (by omega)

theorem string_data_inj {s t : String} (h : s.data = t.data) : s = t := by
  cases s
  cases t
  exact congrArg String.mk h

theorem natDec_injective {m n : Nat} (h : natDec m = natDec n) : m = n := by
  have hd : natDecDigits m = natDecDigits n := by
    have := congrArg String.data h
    simpa [natDec] using this
  have := congrArg digitsVal hd
  rwa [digitsVal_natDecDigits, digitsVal_natDecDigits] at this

theorem natDecDigitsAux_head : ∀ fuel n, n < fuel →
    ∃ c cs, natDecDigitsAux fuel n = c :: cs ∧ 48 ≤ c.toNat ∧ c.toNat ≤ 57 := by
  intro fuel
  induction fuel with
  | zero => intro n h; omega
  | succ fuel ih =>
    intro n h
    rw [natDecDigitsAux]
    by_cases h10 : n < 10
    · rw [if_pos h10]
      exact ⟨digitChar n, [], rfl, digitChar_code n h10⟩
    · rw [if_neg h10]
      have hlt : n / 10 < fuel := by
        have := Nat.div_lt_self (by omega : 0 < n) (by omega : (1 : Nat) < 10)
        omega
      obtain ⟨c, cs, hcons, hrange⟩ := ih (n / 10) hlt
      exact ⟨c, cs ++ [digitChar (n % 10)], by rw [hcons]; rfl, hrange⟩

theorem natDec_data_head (n : Nat) :
    ∃ c cs, (natDec n).data = c :: cs ∧ 48 ≤ c.toNat ∧ c.toNat ≤ 57 := by
  obtain ⟨c, cs, hcons, hrange⟩ := natDecDigitsAux_head (n + 1) n (by omega)
  exact ⟨c, cs, by simp [natDec, natDecDigits, hcons], hrange⟩

theorem intDec_data_head (i : Int) :
    ∃ c cs, (intDec i).data = c :: cs ∧
      ((c.toNat = 45 ∧ i < 0) ∨ (48 ≤ c.toNat ∧ c.toNat ≤ 57 ∧ 0 ≤ i)) := by
  by_cases h : i < 0
  · obtain ⟨c, cs, hcons, _⟩ := natDec_data_head i.natAbs
    refine ⟨'-', (natDec i.natAbs).data, ?_, Or.inl ⟨rfl, h⟩⟩
    simp [intDec, if_pos h, String.data_append]
  · obtain ⟨c, cs, hcons, hrange⟩ := natDec_data_head i.natAbs
    exact ⟨c, cs, by simp [intDec, if_neg h, hcons], Or.inr ⟨hrange.1, hrange.2, by omega⟩⟩

theorem intDec_injective {i j : Int} (h : intDec i = intDec j) : i = j := by
  by_cases hi : i < 0 <;> by_cases hj : j < 0
  · have hd : natDec i.natAbs = natDec j.natAbs := by
      have := congrArg String.data h
      simp [intDec, if_pos hi, if_pos hj, String.data_append] at this
      exact string_data_inj this
    have := natDec_injective hd
    omega
  · exfalso
    obtain ⟨c, cs, hc, hr⟩ := intDec_data_head i
    obtain ⟨d, ds, hd, hr'⟩ := intDec_data_head j
    rw [h, hd] at hc
    obtain ⟨rfl, _⟩ := List.cons.injEq .. ▸ hc
    rcases hr with ⟨h45, _⟩ | ⟨_, _, hge⟩ <;> rcases hr' with ⟨h45', _⟩ | ⟨hlo, _, _⟩
    all_goals omega
  · exfalso
    obtain ⟨c, cs, hc, hr⟩ := intDec_data_head i
    obtain ⟨d, ds, hd, hr'⟩ := intDec_data_head j
    rw [h, hd] at hc
    obtain ⟨rfl, _⟩ := List.cons.injEq .. ▸ hc
    rcases hr with ⟨h45, _⟩ | ⟨_, _, hge⟩ <;> rcases hr' with ⟨h45', _⟩ | ⟨hlo, _, _⟩
    all_goals omega
  · have hd : natDec i.natAbs = natDec j.natAbs := by
      have := congrArg String.data h
      simp [intDec, if_neg hi, if_neg hj] at this
      exact string_data_inj this
    have := natDec_injective hd
    omega

/-- Decode one single-character escape code (proof-side inverse of the
short escapes emitted by `escChar`). -/
def unescCode (e : Char) : Char :=
  if e = 'b' then '\x08'
  else if e = 'f' then '\x0c'
  else if e = 'n' then '\n'
  else if e = 'r' then '\r'
  else if e = 't' then '\t'
  else e

/-- Proof-side inverse of `escList`: scan the escaped text, decoding each
escape sequence back to the character it encodes. -/
def unescList : List Char → List Char
  | [] => []
  | c :: rest =>
    if c = '\\' then
      match rest with
      | 'u' :: h1 :: h2 :: h3 :: h4 :: rest' =>
        Char.ofNat ((((hexVal h1).getD 0 * 16 + (hexVal h2).getD 0) * 16 +
          (hexVal h3).getD 0) * 16 + (hexVal h4).getD 0) :: unescList rest'
      | e :: rest' => unescCode e :: unescList rest'
      | [] => []
    else c :: unescList rest

theorem hexVal_hexChar : ∀ d, d < 16 → hexVal (hexChar d) = some d := by decide

theorem unescList_escList : ∀ cs, unescList (escList cs) = cs := by
  intro cs
  induction cs with
  | nil => rfl
  | cons c cs ih =>
    show unescList (escChar c ++ escList cs) = c :: cs
    by_cases h1 : c = '"'
    · subst h1
      simp [escChar, unescList, unescCode, ih]
    · by_cases h2 : c = '\\'
      · subst h2
        simp [escChar, unescList, unescCode, ih]
      · by_cases h3 : c = '\x08'
        · subst h3
          simp [escChar, unescList, unescCode, ih]
        · by_cases h4 : c = '\x0c'
          · subst h4
            simp [escChar, unescList, unescCode, ih]
          · by_cases h5 : c = '\n'
            · subst h5
              simp [escChar, unescList, unescCode, ih]
            · by_cases h6 : c = '\r'
              · subst h6
                simp [escChar, unescList, unescCode, ih]
              · by_cases h7 : c = '\t'
                · subst h7
                  simp [escChar, unescList, unescCode, ih]
                · by_cases h8 : c.toNat < 32
                  · have hesc : escChar c = ['\\', 'u', '0', '0',
                        hexChar (c.toNat / 16), hexChar (c.toNat % 16)] := by
                      simp [escChar, h1, h2, h3, h4, h5, h6, h7, h8]
                    rw [hesc]
                    show unescList ('\\' :: 'u' :: '0' :: '0' ::
                      hexChar (c.toNat / 16) :: hexChar (c.toNat % 16) ::
                      escList cs) = c :: cs
                    rw [unescList]
                    rw [if_pos rfl]
                    rw [hexVal_hexChar (c.toNat / 16) (by omega),
                      hexVal_hexChar (c.toNat % 16) (by omega)]
                    have hv0 : hexVal '0' = some 0 := by decide
                    rw [hv0]
                    simp only [Option.getD_some]
                    have hval : (((0 * 16 + 0) * 16 + c.toNat / 16) * 16 +
                        c.toNat % 16) = c.toNat := by omega
                    rw [hval, Char.ofNat_toNat, ih]
                  · have hesc : escChar c = [c] := by
                      simp [escChar, h1, h2, h3, h4, h5, h6, h7, h8]
                    rw [hesc]
                    show unescList (c :: escList cs) = c :: cs
                    rw [unescList.eq_def]
                    simp [h2, ih]

theorem escList_injective {a b : List Char} (h : escList a = escList b) : a = b := by
  have := congrArg unescList h
  rwa [unescList_escList, unescList_escList] at this

theorem jsonQuote_injective {s t : String} (h : jsonQuote s = jsonQuote t) :
    s = t := by
  have hd : ('"' :: (escList s.data ++ ['"'])) = ('"' :: (escList t.data ++ ['"'])) := by
    have := congrArg String.data h
    simpa [jsonQuote] using this
  have hesc : escList s.data = escList t.data :=
    List.append_cancel_right (List.cons.injEq .. ▸ hd).2
  exact string_data_inj (escList_injective hesc)

theorem jsonQuote_data_head (s : String) :
    ∃ cs, (jsonQuote s).data = '"' :: cs := by
  exact ⟨escList s.data ++ ['"'], rfl⟩

/-- The serialized form of one argument inside the key array (an argument
that serializes to nothing renders as `null`). -/
def encElem (v : Value) : String := (encVal v).getD "null"

/-- Is this value a JavaScript primitive (null, undefined, boolean, number —
including the non-finite numbers — or string)? -/
def isPrimitive : Value → Bool
  | .vnull | .vundef | .vbool _ | .vint _ | .vnan | .vinf | .vneginf
  | .vstr _ => true
  | _ => false

/-- Does `JSON.stringify` render this value as the literal `null` inside an
array?  True exactly for `null`, `undefined` (dropped values become `null`
in array positions) and the non-finite numbers `NaN`, `Infinity`,
`-Infinity`; any two distinct such primitives collide to the same cache
key. -/
def rendersNull : Value → Bool
  | .vnull | .vundef | .vnan | .vinf | .vneginf => true
  | _ => false

theorem ne_of_data_head {s t : String} (c d : Char) (cs ds : List Char)
    (hs : s.data = c :: cs) (ht : t.data = d :: ds)
    (hcd : c.toNat ≠ d.toNat) : s ≠ t := by
  intro h
  rw [h, ht] at hs
  exact hcd (congrArg Char.toNat (List.cons.injEq .. ▸ hs).1.symm)

theorem intDec_ne_null (n : Int) : intDec n ≠ "null" := by
  obtain ⟨c, cs, hc, hr⟩ := intDec_data_head n
  refine ne_of_data_head c 'n' cs ['u', 'l', 'l'] hc rfl ?_
  rw [show ('n').toNat = 110 from rfl]
  rcases hr with ⟨h45, _⟩ | ⟨hlo, hhi, _⟩ <;> omega

theorem intDec_ne_true (n : Int) : intDec n ≠ "true" := by
  obtain ⟨c, cs, hc, hr⟩ := intDec_data_head n
  refine ne_of_data_head c 't' cs ['r', 'u', 'e'] hc rfl ?_
  rw [show ('t').toNat = 116 from rfl]
  rcases hr with ⟨h45, _⟩ | ⟨hlo, hhi, _⟩ <;> omega

theorem intDec_ne_false (n : Int) : intDec n ≠ "false" := by
  obtain ⟨c, cs, hc, hr⟩ := intDec_data_head n
  refine ne_of_data_head c 'f' cs ['a', 'l', 's', 'e'] hc rfl ?_
  rw [show ('f').toNat = 102 from rfl]
  rcases hr with ⟨h45, _⟩ | ⟨hlo, hhi, _⟩ <;> omega

theorem intDec_ne_quote (n : Int) (s : String) : intDec n ≠ jsonQuote s := by
  obtain ⟨c, cs, hc, hr⟩ := intDec_data_head n
  obtain ⟨ds, hd⟩ := jsonQuote_data_head s
  refine ne_of_data_head c '"' cs ds hc hd ?_
  rw [show ('"').toNat = 34 from rfl]
  rcases hr with ⟨h45, _⟩ | ⟨hlo, hhi, _⟩ <;> omega

theorem quote_ne_null (s : String) : jsonQuote s ≠ "null" := by
  obtain ⟨ds, hd⟩ := jsonQuote_data_head s
  refine ne_of_data_head '"' 'n' ds ['u', 'l', 'l'] hd rfl (by decide)

theorem quote_ne_true (s : String) : jsonQuote s ≠ "true" := by
  obtain ⟨ds, hd⟩ := jsonQuote_data_head s
  refine ne_of_data_head '"' 't' ds ['r', 'u', 'e'] hd rfl (by decide)

theorem quote_ne_false (s : String) : jsonQuote s ≠ "false" := by
  obtain ⟨ds, hd⟩ := jsonQuote_data_head s
  refine ne_of_data_head '"' 'f' ds ['a', 'l', 's', 'e'] hd rfl (by decide)

theorem encElem_rendersNull (v : Value) (h : rendersNull v = true) :
    encElem v = "null" := by
  cases v <;> first | rfl | simp [rendersNull] at h

theorem encElem_prim_ne_null (v : Value) (hp : isPrimitive v = true)
    (hr : rendersNull v = false) : encElem v ≠ "null" := by
  cases v with
  | vbool b => cases b <;> decide
  | vint n => exact intDec_ne_null n
  | vstr s => exact quote_ne_null s
  | vnull => simp [rendersNull] at hr
  | vundef => simp [rendersNull] at hr
  | vnan => simp [rendersNull] at hr
  | vinf => simp [rendersNull] at hr
  | vneginf => simp [rendersNull] at hr
  | vfunc name src => simp [isPrimitive] at hp
  | varr es => simp [isPrimitive] at hp
  | vobj fs => simp [isPrimitive] at hp

theorem encElem_prim_inj (p q : Value) (hp : isPrimitive p = true)
    (hq : isPrimitive q = true) (hne : p ≠ q)
    (hnu : ¬(rendersNull p = true ∧ rendersNull q = true)) :
    encElem p ≠ encElem q := by
  by_cases hrp : rendersNull p = true
  · by_cases hrq : rendersNull q = true
    · exact absurd ⟨hrp, hrq⟩ hnu
    · rw [encElem_rendersNull p hrp]
      exact fun h =>
        encElem_prim_ne_null q hq (Bool.eq_false_iff.mpr hrq) h.symm
  · by_cases hrq : rendersNull q = true
    · rw [encElem_rendersNull q hrq]
      exact encElem_prim_ne_null p hp (Bool.eq_false_iff.mpr hrp)
    · have hrp' : rendersNull p = false := Bool.eq_false_iff.mpr hrp
      have hrq' : rendersNull q = false := Bool.eq_false_iff.mpr hrq
      cases p with
      | vbool b =>
        cases q with
        | vbool b' =>
          cases b <;> cases b' <;> first
            | exact absurd rfl hne
            | decide
        | vint n =>
          cases b
          · exact fun h => intDec_ne_false n h.symm
          · exact fun h => intDec_ne_true n h.symm
        | vstr s =>
          cases b
          · exact fun h => quote_ne_false s h.symm
          · exact fun h => quote_ne_true s h.symm
        | vnull => simp [rendersNull] at hrq'
        | vundef => simp [rendersNull] at hrq'
        | vnan => simp [rendersNull] at hrq'
        | vinf => simp [rendersNull] at hrq'
        | vneginf => simp [rendersNull] at hrq'
        | vfunc name src => simp [isPrimitive] at hq
        | varr es => simp [isPrimitive] at hq
        | vobj fs => simp [isPrimitive] at hq
      | vint n =>
        cases q with
        | vbool b =>
          cases b
          · exact intDec_ne_false n
          · exact intDec_ne_true n
        | vint m =>
          intro h
          exact hne (congrArg Value.vint (intDec_injective h))
        | vstr s => exact intDec_ne_quote n s
        | vnull => simp [rendersNull] at hrq'
        | vundef => simp [rendersNull] at hrq'
        | vnan => simp [rendersNull] at hrq'
        | vinf => simp [rendersNull] at hrq'
        | vneginf => simp [rendersNull] at hrq'
        | vfunc name src => simp [isPrimitive] at hq
        | varr es => simp [isPrimitive] at hq
        | vobj fs => simp [isPrimitive] at hq
      | vstr s =>
        cases q with
        | vbool b =>
          cases b
          · exact quote_ne_false s
          · exact quote_ne_true s
        | vint m => exact fun h => intDec_ne_quote m s h.symm
        | vstr t =>
          intro h
          exact hne (congrArg Value.vstr (jsonQuote_injective h))
        | vnull => simp [rendersNull] at hrq'
        | vundef => simp [rendersNull] at hrq'
        | vnan => simp [rendersNull] at hrq'
        | vinf => simp [rendersNull] at hrq'
        | vneginf => simp [rendersNull] at hrq'
        | vfunc name src => simp [isPrimitive] at hq
        | varr es => simp [isPrimitive] at hq
        | vobj fs => simp [isPrimitive] at hq
      | vnull => simp [rendersNull] at hrp'
      | vundef => simp [rendersNull] at hrp'
      | vnan => simp [rendersNull] at hrp'
      | vinf => simp [rendersNull] at hrp'
      | vneginf => simp [rendersNull] at hrp'
      | vfunc name src => simp [isPrimitive] at hp
      | varr es => simp [isPrimitive] at hp
      | vobj fs => simp [isPrimitive] at hp

theorem commaJoin_cons_of_ne_nil (s : String) (l : List String) (h : l ≠ []) :
    commaJoin (s :: l) = s ++ "," ++ commaJoin l := by
  cases l with
  | nil => exact absurd rfl h
  | cons t ts => rfl

theorem string_append_left_cancel {a b c : String} (h : a ++ b = a ++ c) :
    b = c := by
  have h2 : a.data ++ b.data = a.data ++ c.data := by
    have := congrArg String.data h
    simpa [String.data_append] using this
  exact string_data_inj (List.append_cancel_left h2)

theorem string_append_right_cancel {a b c : String} (h : a ++ c = b ++ c) :
    a = b := by
  have h2 : a.data ++ c.data = b.data ++ c.data := by
    have := congrArg String.data h
    simpa [String.data_append] using this
  exact string_data_inj (List.append_cancel_right h2)

theorem commaJoin_ne_at : ∀ (A : List String) (x y : String) (B : List String),
    x ≠ y → commaJoin (A ++ x :: B) ≠ commaJoin (A ++ y :: B) := by
  intro A
  induction A with
  | nil =>
    intro x y B hxy
    cases B with
    | nil => simpa [commaJoin] using hxy
    | cons b bs =>
      rw [List.nil_append, List.nil_append,
        commaJoin_cons_of_ne_nil x (b :: bs) (by simp),
        commaJoin_cons_of_ne_nil y (b :: bs) (by simp)]
      intro h
      have h1 := string_append_right_cancel h
      exact hxy (string_append_right_cancel h1)
  | cons a A ih =>
    intro x y B hxy
    rw [List.cons_append, List.cons_append,
      commaJoin_cons_of_ne_nil a (A ++ x :: B) (by simp),
      commaJoin_cons_of_ne_nil a (A ++ y :: B) (by simp)]
    intro h
    have h1 : (a ++ ",") ++ commaJoin (A ++ x :: B) =
        (a ++ ",") ++ commaJoin (A ++ y :: B) := by
      simpa [String.append_assoc] using h
    exact ih x y B hxy (string_append_left_cancel h1)

theorem encList_eq_map (vs : List Value) : encList vs = vs.map encElem := by
  induction vs with
  | nil => rfl
  | cons v vs ih => simp [encList, encElem, ih]

theorem getCacheKeyForParams_ne_at (pre suf : List Value) (p q : Value)
    (h : encElem p ≠ encElem q) :
    getCacheKeyForParams (pre ++ p :: suf) ≠
      getCacheKeyForParams (pre ++ q :: suf) := by
  unfold getCacheKeyForParams
  rw [encList_eq_map, encList_eq_map, List.map_append, List.map_append,
    List.map_cons, List.map_cons]
  intro hcontra
  have h1 := string_append_right_cancel hcontra
  have h2 := string_append_left_cancel h1
  exact commaJoin_ne_at (pre.map encElem) (encElem p) (encElem q)
    (suf.map encElem) h h2

/-- The escaped body of a JSON string literal: every backslash begins a
two-character escape and every other character is neither a quote nor a
backslash, so a scanner never meets an unescaped closing quote early. -/
inductive GoodEsc : List Char → Prop where
  | nil : GoodEsc []
  | esc (c : Char) (rest : List Char) : GoodEsc rest → GoodEsc ('\\' :: c :: rest)
  | plain (c : Char) (rest : List Char) : c ≠ '"' → c ≠ '\\' → GoodEsc rest →
      GoodEsc (c :: rest)

theorem hexChar_ne_quote (d : Nat) : hexChar d ≠ '"' := by
  unfold hexChar
  split <;> decide

theorem hexChar_ne_backslash (d : Nat) : hexChar d ≠ '\\' := by
  unfold hexChar
  split <;> decide

theorem escList_goodEsc : ∀ cs, GoodEsc (escList cs) := by
  intro cs
  induction cs with
  | nil => exact GoodEsc.nil
  | cons c cs ih =>
    show GoodEsc (escChar c ++ escList cs)
    by_cases h1 : c = '"'
    · subst h1
      have hesc : escChar '"' = ['\\', '"'] := by simp [escChar]
      rw [hesc]
      exact GoodEsc.esc _ _ ih
    · by_cases h2 : c = '\\'
      · subst h2
        have hesc : escChar '\\' = ['\\', '\\'] := by simp [escChar]
        rw [hesc]
        exact GoodEsc.esc _ _ ih
      · by_cases h3 : c = '\x08'
        · subst h3
          have hesc : escChar '\x08' = ['\\', 'b'] := by simp [escChar]
          rw [hesc]
          exact GoodEsc.esc _ _ ih
        · by_cases h4 : c = '\x0c'
          · subst h4
            have hesc : escChar '\x0c' = ['\\', 'f'] := by simp [escChar]
            rw [hesc]
            exact GoodEsc.esc _ _ ih
          · by_cases h5 : c = '\n'
            · subst h5
              have hesc : escChar '\n' = ['\\', 'n'] := by simp [escChar]
              rw [hesc]
              exact GoodEsc.esc _ _ ih
            · by_cases h6 : c = '\r'
              · subst h6
                have hesc : escChar '\r' = ['\\', 'r'] := by simp [escChar]
                rw [hesc]
                exact GoodEsc.esc _ _ ih
              · by_cases h7 : c = '\t'
                · subst h7
                  have hesc : escChar '\t' = ['\\', 't'] := by simp [escChar]
                  rw [hesc]
                  exact GoodEsc.esc _ _ ih
                · by_cases h8 : c.toNat < 32
                  · have hesc : escChar c = ['\\', 'u', '0', '0',
                        hexChar (c.toNat / 16), hexChar (c.toNat % 16)] := by
                      simp [escChar, h1, h2, h3, h4, h5, h6, h7, h8]
                    rw [hesc]
                    exact GoodEsc.esc _ _ (GoodEsc.plain _ _ (by decide) (by decide)
                      (GoodEsc.plain _ _ (by decide) (by decide)
                      (GoodEsc.plain _ _ (hexChar_ne_quote _) (hexChar_ne_backslash _)
                      (GoodEsc.plain _ _ (hexChar_ne_quote _) (hexChar_ne_backslash _)
                        ih))))
                  · have hesc : escChar c = [c] := by
                      simp [escChar, h1, h2, h3, h4, h5, h6, h7, h8]
                    rw [hesc]
                    exact GoodEsc.plain c _ h1 h2 ih

theorem goodEsc_quote_split : ∀ {A B r1 r2 : List Char}, GoodEsc A → GoodEsc B →
    A ++ '"' :: r1 = B ++ '"' :: r2 → A = B := by
  intro A B r1 r2 hA
  induction hA generalizing B r1 r2 with
  | nil =>
    intro hB heq
    cases hB with
    | nil => rfl
    | esc c rest hrest =>
      simp only [List.nil_append, List.cons_append] at heq
      injection heq with h1 _
      exact absurd h1 (by decide)
    | plain c rest hq hb hrest =>
      simp only [List.nil_append, List.cons_append] at heq
      injection heq with h1 _
      exact absurd h1.symm hq
  | esc c rest hrest ih =>
    intro hB heq
    cases hB with
    | nil =>
      simp only [List.nil_append, List.cons_append] at heq
      injection heq with h1 _
      exact absurd h1 (by decide)
    | esc d rest' hrest' =>
      simp only [List.cons_append] at heq
      injection heq with h1 heq2
      injection heq2 with h2 heq3
      rw [h2, ih hrest' heq3]
    | plain d rest' hq' hb' hrest' =>
      simp only [List.cons_append] at heq
      injection heq with h1 _
      exact absurd h1.symm hb'
  | plain c rest hq hb hrest ih =>
    intro hB heq
    cases hB with
    | nil =>
      simp only [List.nil_append, List.cons_append] at heq
      injection heq with h1 _
      exact absurd h1 hq
    | esc d rest' hrest' =>
      simp only [List.cons_append] at heq
      injection heq with h1 _
      exact absurd h1 hb
    | plain d rest' hq' hb' hrest' =>
      simp only [List.cons_append] at heq
      injection heq with h1 heq2
      rw [h1, ih hrest' heq2]

theorem noComma_split : ∀ (A : List Char) {B r1 r2 : List Char},
    ',' ∉ A → ',' ∉ B → A ++ ',' :: r1 = B ++ ',' :: r2 → A = B := by
  intro A
  induction A with
  | nil =>
    intro B r1 r2 _ hB heq
    cases B with
    | nil => rfl
    | cons b bs =>
      exfalso
      simp only [List.nil_append, List.cons_append] at heq
      injection heq with h1 _
      apply hB
      rw [h1]
      exact List.mem_cons_self b bs
  | cons a as ih =>
    intro B r1 r2 hA hB heq
    cases B with
    | nil =>
      exfalso
      simp only [List.nil_append, List.cons_append] at heq
      injection heq with h1 _
      apply hA
      rw [← h1]
      exact List.mem_cons_self a as
    | cons b bs =>
      simp only [List.cons_append] at heq
      injection heq with h1 heq2
      have has : ',' ∉ as := fun h => hA (List.mem_cons_of_mem a h)
      have hbs : ',' ∉ bs := fun h => hB (List.mem_cons_of_mem b h)
      rw [h1, ih has hbs heq2]

/-- A string (as a character list) that can stand as one element of the
comma-joined key array without disturbing where the element boundaries
fall: either it contains no comma and no quote (`null`, booleans, decimal
numbers), or it is a complete JSON string literal whose escaped body never
exposes an unescaped quote. -/
def TokenOK (s : List Char) : Prop :=
  (s ≠ [] ∧ ',' ∉ s ∧ '"' ∉ s) ∨ (∃ A, s = '"' :: (A ++ ['"']) ∧ GoodEsc A)

theorem token_split {t u r1 r2 : List Char} (ht : TokenOK t) (hu : TokenOK u)
    (heq : t ++ ',' :: r1 = u ++ ',' :: r2) : t = u := by
  rcases ht with ⟨htne, htc, htq⟩ | ⟨A, rfl, hA⟩
  · rcases hu with ⟨hune, huc, huq⟩ | ⟨B, rfl, hB⟩
    · exact noComma_split t htc huc heq
    · exfalso
      cases t with
      | nil => exact htne rfl
      | cons c cs =>
        simp only [List.cons_append] at heq
        injection heq with h1 _
        apply htq
        rw [← h1]
        exact List.mem_cons_self c cs
  · rcases hu with ⟨hune, huc, huq⟩ | ⟨B, rfl, hB⟩
    · exfalso
      cases u with
      | nil => exact hune rfl
      | cons c cs =>
        simp only [List.cons_append] at heq
        injection heq with h1 _
        apply huq
        rw [h1]
        exact List.mem_cons_self c cs
    · simp only [List.cons_append, List.append_assoc, List.singleton_append] at heq
      injection heq with _ heq2
      rw [goodEsc_quote_split hA hB heq2]

theorem digitChar_bounds (d : Nat) :
    48 ≤ (digitChar d).toNat ∧ (digitChar d).toNat ≤ 57 := by
  unfold digitChar
  split <;> decide

theorem natDecDigitsAux_chars : ∀ (fuel n : Nat) (c : Char),
    c ∈ natDecDigitsAux fuel n → 48 ≤ c.toNat ∧ c.toNat ≤ 57 := by
  intro fuel
  induction fuel with
  | zero =>
    intro n c hc
    simp [natDecDigitsAux] at hc
  | succ fuel ih =>
    intro n c hc
    rw [natDecDigitsAux] at hc
    by_cases h : n < 10
    · rw [if_pos h] at hc
      simp only [List.mem_singleton] at hc
      subst hc
      exact digitChar_bounds n
    · rw [if_neg h] at hc
      rcases List.mem_append.mp hc with h1 | h1
      · exact ih _ c h1
      · simp only [List.mem_singleton] at h1
        subst h1
        exact digitChar_bounds _

theorem intDec_chars (i : Int) : ∀ c ∈ (intDec i).data,
    c.toNat = 45 ∨ (48 ≤ c.toNat ∧ c.toNat ≤ 57) := by
  intro c hc
  unfold intDec at hc
  by_cases hi : i < 0
  · rw [if_pos hi, String.data_append] at hc
    rcases List.mem_append.mp hc with h1 | h1
    · left
      simp only [show ("-").data = ['-'] from rfl, List.mem_singleton] at h1
      subst h1
      rfl
    · right
      exact natDecDigitsAux_chars _ _ c h1
  · rw [if_neg hi] at hc
    right
    exact natDecDigitsAux_chars _ _ c hc

theorem encElem_tokenOK (v : Value) (hp : isPrimitive v = true) :
    TokenOK (encElem v).data := by
  cases v with
  | vnull => exact Or.inl ⟨by decide, by decide, by decide⟩
  | vundef => exact Or.inl ⟨by decide, by decide, by decide⟩
  | vnan => exact Or.inl ⟨by decide, by decide, by decide⟩
  | vinf => exact Or.inl ⟨by decide, by decide, by decide⟩
  | vneginf => exact Or.inl ⟨by decide, by decide, by decide⟩
  | vbool b => cases b <;> exact Or.inl ⟨by decide, by decide, by decide⟩
  | vint n =>
    left
    have hch := intDec_chars n
    obtain ⟨c, cs, hc, _⟩ := intDec_data_head n
    refine ⟨by show (intDec n).data ≠ []; rw [hc]; simp, ?_, ?_⟩
    · intro h
      have := hch ',' h
      simp only [show (',').toNat = 44 from rfl] at this
      omega
    · intro h
      have := hch '"' h
      simp only [show ('"').toNat = 34 from rfl] at this
      omega
  | vstr s => exact Or.inr ⟨escList s.data, rfl, escList_goodEsc s.data⟩
  | vfunc name src => simp [isPrimitive] at hp
  | varr es => simp [isPrimitive] at hp
  | vobj fs => simp [isPrimitive] at hp

theorem commaJoin_data_cons (s : String) (l : List String) (h : l ≠ []) :
    (commaJoin (s :: l)).data = s.data ++ ',' :: (commaJoin l).data := by
  rw [commaJoin_cons_of_ne_nil s l h]
  rw [String.data_append, String.data_append]
  rw [show (",").data = [','] from rfl]
  simp

/-- Pairwise relation between the element strings of two joined key arrays:
the strings at each position are either identical or both safe tokens. -/
def TokenRel (t u : String) : Prop := t = u ∨ (TokenOK t.data ∧ TokenOK u.data)

theorem commaJoin_inj_forall2 : ∀ {ts us : List String},
    List.Forall₂ TokenRel ts us → commaJoin ts = commaJoin us → ts = us := by
  intro ts us h
  induction h with
  | nil =>
    intro _
    rfl
  | @cons a b as bs hab htail ih =>
    intro hj
    cases htail with
    | nil =>
      have hab2 : a = b := hj
      rw [hab2]
    | @cons a' b' as' bs' hab' htail' =>
      have hjd := congrArg String.data hj
      rw [commaJoin_data_cons a (a' :: as') (by simp),
        commaJoin_data_cons b (b' :: bs') (by simp)] at hjd
      have hab2 : a = b := by
        rcases hab with h | ⟨hta, htb⟩
        · exact h
        · exact string_data_inj (token_split hta htb hjd)
      subst hab2
      have hjd2 : ',' :: (commaJoin (a' :: as')).data =
          ',' :: (commaJoin (b' :: bs')).data := List.append_cancel_left hjd
      have hjd3 : commaJoin (a' :: as') = commaJoin (b' :: bs') := by
        injection hjd2 with _ h2
        exact string_data_inj h2
      rw [ih hjd3]

/-- Pairwise relation between two argument tuples: at every position the
values are identical, or both are primitives that do not both render as
`null` (the sole way two distinct primitives can share a serialization). -/
def PrimDiffRel (v w : Value) : Prop :=
  v = w ∨ (isPrimitive v = true ∧ isPrimitive w = true ∧
    ¬(rendersNull v = true ∧ rendersNull w = true))

theorem forall2_token_of_primDiff : ∀ {ps qs : List Value},
    List.Forall₂ PrimDiffRel ps qs →
    List.Forall₂ TokenRel (ps.map encElem) (qs.map encElem) := by
  intro ps qs h
  induction h with
  | nil => exact List.Forall₂.nil
  | @cons v w vs ws hvw htail ih =>
    simp only [List.map_cons]
    refine List.Forall₂.cons ?_ ih
    rcases hvw with h | ⟨hpv, hpw, _⟩
    · exact Or.inl (congrArg encElem h)
    · exact Or.inr ⟨encElem_tokenOK v hpv, encElem_tokenOK w hpw⟩

theorem eq_of_encElem_map_eq : ∀ {ps qs : List Value},
    List.Forall₂ PrimDiffRel ps qs → ps.map encElem = qs.map encElem →
    ps = qs := by
  intro ps qs h
  induction h with
  | nil =>
    intro _
    rfl
  | @cons v w vs ws hvw htail ih =>
    intro hm
    simp only [List.map_cons, List.cons.injEq] at hm
    obtain ⟨h1, h2⟩ := hm
    have hvw2 : v = w := by
      rcases hvw with h | ⟨hpv, hpw, hnu⟩
      · exact h
      · by_cases hvw3 : v = w
        · exact hvw3
        · exact absurd h1 (encElem_prim_inj v w hpv hpw hvw3 hnu)
    rw [hvw2, ih h2]

theorem getCacheKeyForParams_ne_of_primDiff {ps qs : List Value}
    (hrel : List.Forall₂ PrimDiffRel ps qs) (hne : ps ≠ qs) :
    getCacheKeyForParams ps ≠ getCacheKeyForParams qs := by
  intro hk
  apply hne
  unfold getCacheKeyForParams at hk
  have hk1 := string_append_right_cancel hk
  have hk2 := string_append_left_cancel hk1
  rw [encList_eq_map, encList_eq_map] at hk2
  exact eq_of_encElem_map_eq hrel
    (commaJoin_inj_forall2 (forall2_token_of_primDiff hrel) hk2)

/-- C6 counterexample: tuples that differ in one primitive value can share
one cache key.  `(null)` vs `(undefined)` and `(NaN)` vs `(null)` are such
pairs: `JSON.stringify` renders `null`, `undefined` (in an array position)
and the non-finite numbers all as the literal `null`, so each pair shares
the key `"[null]"`, and two calls from an empty default-configured cache
leave `cacheSize = 1`, not the 2 the claim asserts. -/
theorem key_distinctness_counterexample :
    (isPrimitive Value.vnull = true ∧ isPrimitive Value.vundef = true ∧
      isPrimitive Value.vnan = true) ∧
    Value.vnull ≠ Value.vundef ∧ Value.vnan ≠ Value.vnull ∧
    getCacheKeyForParams [Value.vnull] = getCacheKeyForParams [Value.vundef] ∧
    getCacheKeyForParams [Value.vnan] = getCacheKeyForParams [Value.vnull] ∧
    (getStats (defaultOptions Nat) (runCalls (defaultOptions Nat) witnessSelector
      (initialFactoryState Unit Nat)
      [callWith [Value.vnull] 0, callWith [Value.vundef] 0])).cacheSize = 1 ∧
    (getStats (defaultOptions Nat) (runCalls (defaultOptions Nat) witnessSelector
      (initialFactoryState Unit Nat)
      [callWith [Value.vnan] 0, callWith [Value.vnull] 0])).cacheSize = 1 := by
  refine ⟨⟨rfl, rfl, rfl⟩, fun h => Value.noConfusion h,
    fun h => Value.noConfusion h, by decide, by decide, by decide, by decide⟩

/-- C6 (amended): for argument tuples of equal length that differ, and whose
values agree at every position except possibly at positions holding two
distinct primitive values — excluding positions where both sides are among
the values `JSON.stringify` renders as the literal `null` inside an array
(`null`, `undefined`, `NaN`, `Infinity` and `-Infinity`) — the factory
creates two distinct cache entries: starting from an empty cache with
capacity at least 2, one call with each tuple leaves
`getStats().cacheSize = 2`. -/
theorem key_distinctness_amended {State Result E : Type} [DecidableEq State]
    (opts : SelectorOptions Result) (f : State → List Value → Except E Result)
    (hmax : 2 ≤ opts.maxSize) (ps qs : List Value)
    (hrel : List.Forall₂ PrimDiffRel ps qs) (hne : ps ≠ qs)
    (st1 st2 : State) (t1 t2 pn1 pn2 : Int) :
    (getStats opts (factorySelector opts f (factorySelector opts f
        (initialFactoryState State Result) st1 ps t1 pn1).2
        st2 qs t2 pn2).2).cacheSize = 2 := by
  have hkne := getCacheKeyForParams_ne_of_primDiff hrel hne
  set σ1 := (factorySelector opts f (initialFactoryState State Result)
    st1 ps t1 pn1).2 with hσ1
  have hl1 : mapLookup (initialFactoryState State Result).selectorCache
      (getCacheKeyForParams ps) = none := rfl
  have hlen1 : (initialFactoryState State Result).selectorCache.length + 1 ≤
      opts.maxSize := by
    show 0 + 1 ≤ opts.maxSize
    omega
  obtain ⟨hk1, _, _, _⟩ := factorySelector_miss_noovf_keys opts f
    (initialFactoryState State Result) st1 ps t1 pn1 hl1 hlen1
  rw [← hσ1] at hk1
  have hk1' : σ1.selectorCache.map Prod.fst = [getCacheKeyForParams ps] := by
    rw [hk1]
    rfl
  have hl2 : mapLookup σ1.selectorCache (getCacheKeyForParams qs) = none := by
    rw [mapLookup_eq_none_iff, hk1']
    simp [Ne.symm hkne]
  have hlen2 : σ1.selectorCache.length + 1 ≤ opts.maxSize := by
    have hlen : σ1.selectorCache.length = 1 := by
      have := congrArg List.length hk1'
      simpa using this
    omega
  obtain ⟨hk2, _, _, _⟩ := factorySelector_miss_noovf_keys opts f
    σ1 st2 qs t2 pn2 hl2 hlen2
  show (factorySelector opts f σ1 st2 qs t2 pn2).2.selectorCache.length = 2
  have := congrArg List.length hk2
  simp only [List.length_map, List.length_append, List.length_cons,
    List.length_nil] at this
  rw [this]
  have := congrArg List.length hk1'
  simpa using this

/-! ### Closed witness statements -/

/-- Options with a zero capacity, exercising eviction on every insert. -/
def witnessOptions0 : SelectorOptions Nat := { defaultOptions Nat with maxSize := 0 }

/-- Options with capacity 2, as in the LRU eviction scenario. -/
def witnessOptions2 : SelectorOptions Nat := { defaultOptions Nat with maxSize := 2 }

/-- Options with a 100ms expiry. -/
def witnessOptionsExp : SelectorOptions Nat :=
  { defaultOptions Nat with expireAfter := some 100 }

/-- Options with performance tracking on. -/
def witnessOptionsPerf : SelectorOptions Nat :=
  { defaultOptions Nat with trackPerformance := true }

/-- A wrapped selector that always throws. -/
def throwingSelector : Unit → List Value → Except Unit Nat := fun _ _ => .error ()

theorem capacity_invariant_witness :
    (getStats witnessOptions0 (runCalls witnessOptions0 witnessSelector
      (initialFactoryState Unit Nat) [callWith [Value.vint 1] 0])).cacheSize ≤
      witnessOptions0.maxSize ∧
    (getStats witnessOptions0 (factorySelector witnessOptions0 witnessSelector
      (initialFactoryState Unit Nat) () [Value.vint 2] 0 0).2).cacheSize =
      witnessOptions0.maxSize :=
  ⟨(capacity_invariant witnessOptions0 witnessSelector [callWith [Value.vint 1] 0]).1,
   (capacity_invariant witnessOptions0 witnessSelector []).2
     (initialFactoryState Unit Nat) () [Value.vint 2] 0 0
     (WF_initial Unit Nat) rfl rfl⟩

theorem memoization_correctness_witness :
    (factorySelector (defaultOptions Nat) witnessSelector
      (factorySelector (defaultOptions Nat) witnessSelector
        (initialFactoryState Unit Nat) () [Value.vint 5] 100 0).2
      () [Value.vint 5] 100 0).1 =
      (factorySelector (defaultOptions Nat) witnessSelector
        (initialFactoryState Unit Nat) () [Value.vint 5] 100 0).1 ∧
    (factorySelector (defaultOptions Nat) witnessSelector
      (factorySelector (defaultOptions Nat) witnessSelector
        (initialFactoryState Unit Nat) () [Value.vint 5] 100 0).2
      () [Value.vint 5] 100 0).2.totalHits =
      (factorySelector (defaultOptions Nat) witnessSelector
        (initialFactoryState Unit Nat) () [Value.vint 5] 100 0).2.totalHits + 1 := by
  have h := memoization_correctness (defaultOptions Nat) witnessSelector
    (initialFactoryState Unit Nat) () [Value.vint 5] 100 0 0
    (WF_initial Unit Nat) (by decide) (fun T h => nomatch h)
  exact ⟨h.1, h.2.1⟩

/-- The cache state after calling a capacity-2 factory with the argument
tuples `(1)`, `(2)`, `(3)`. -/
def lruScenarioState : FactoryState Unit Nat :=
  (factorySelector witnessOptions2 witnessSelector (factorySelector witnessOptions2
    witnessSelector (factorySelector witnessOptions2 witnessSelector
    (initialFactoryState Unit Nat) () [Value.vint 1] 0 0).2
    () [Value.vint 2] 0 0).2 () [Value.vint 3] 0 0).2

theorem lru_eviction_order_witness :
    mapLookup lruScenarioState.selectorCache
      (getCacheKeyForParams [Value.vint 1]) = none ∧
    (factorySelector witnessOptions2 witnessSelector lruScenarioState ()
      [Value.vint 2] 0 0).2.totalHits = lruScenarioState.totalHits + 1 := by
  have h := lru_eviction_order witnessOptions2 witnessSelector rfl rfl
    [Value.vint 1] [Value.vint 2] [Value.vint 3]
    (by decide) (by decide) (by decide)
    () () () () () () 0 0 0 0 0 0 0 0 0 0 0 0 lruScenarioState rfl
  exact ⟨h.1.1, (h.2 (factorySelector witnessOptions2 witnessSelector
    lruScenarioState () [Value.vint 2] 0 0).2 rfl).1.1⟩

/-- The cache state after one call on a factory with a 100ms expiry at
time 50. -/
def expiryScenarioState : FactoryState Unit Nat :=
  (factorySelector witnessOptionsExp witnessSelector (initialFactoryState Unit Nat)
    () [Value.vint 7] 50 0).2

/-- The entry that call stores. -/
def expiryScenarioEntry : CacheEntry Unit Nat :=
  { params := [Value.vint 7], memo := some ((), 1), lastUsed := 50, created := 50,
    hits := 0, misses := 1, executionTime := 0 }

theorem expiry_measured_from_created_witness :
    (factorySelector witnessOptionsExp witnessSelector expiryScenarioState ()
      [Value.vint 7] (50 + 100 + 1) 0).2.totalMisses =
      expiryScenarioState.totalMisses + 1 ∧
    (factorySelector witnessOptionsExp witnessSelector expiryScenarioState ()
      [Value.vint 7] (50 + 100 - 1) 0).2.totalHits =
      expiryScenarioState.totalHits + 1 := by
  have h := expiry_measured_from_created witnessOptionsExp witnessSelector 100 rfl
    (by decide) expiryScenarioState
    (WF_factorySelector witnessOptionsExp witnessSelector
      (initialFactoryState Unit Nat) () [Value.vint 7] 50 0 (WF_initial Unit Nat))
    (by decide) [Value.vint 7] expiryScenarioEntry 50 rfl rfl () 0
  exact ⟨h.1.1, h.2.1.1⟩

theorem key_distinctness_amended_witness :
    (getStats (defaultOptions Nat) (factorySelector (defaultOptions Nat)
      witnessSelector (factorySelector (defaultOptions Nat) witnessSelector
      (initialFactoryState Unit Nat) () [Value.vint 1] 0 0).2
      () [Value.vint 2] 0 0).2).cacheSize = 2 :=
  key_distinctness_amended (defaultOptions Nat) witnessSelector (by decide)
    [Value.vint 1] [Value.vint 2]
    (List.Forall₂.cons (Or.inr ⟨rfl, rfl, fun h => Bool.false_ne_true h.1⟩)
      List.Forall₂.nil)
    (fun h => by
      injection h with h1 _
      injection h1 with h2
      exact absurd h2 (by decide))
    () () 0 0 0 0

theorem pagination_clamps_to_last_page_witness :
    paginationSelectorBody [10, 20, 30] 5 2 =
      { items := [(30 : Nat)],
        pagination :=
          { totalItems := 3, totalPages := 2, currentPage := 1, pageSize := 2,
            hasNextPage := false, hasPreviousPage := true } } :=
  (pagination_clamps_to_last_page [10, 20, 30] 5 2 (by decide)).2.2 10 20 30

theorem invalidate_by_predicate_witness :
    (invalidateCache invalidationScenarioState (some predFirstGt1)).1 = some 2 ∧
    (getStats (defaultOptions Nat)
      (invalidateCache invalidationScenarioState (some predFirstGt1)).2).cacheSize
      = 1 :=
  (invalidate_by_predicate invalidationScenarioState
    ((WF_runCalls (defaultOptions Nat) witnessSelector
      [callWith [Value.vint 1] 0, callWith [Value.vint 2] 0, callWith [Value.vint 3] 0]
      (initialFactoryState Unit Nat) (WF_initial Unit Nat) (by decide)).1)
    predFirstGt1).2.2

/-- A wrapped inner computation returning a constant. -/
def witnessComputeOk : Unit → Except Unit Nat := fun _ => .ok 5

/-- A fresh-looking entry with zero accumulated execution time. -/
def witnessEntry : CacheEntry Unit Nat :=
  { params := [], memo := none, lastUsed := 0, created := 0, hits := 0,
    misses := 1, executionTime := 0 }

theorem trackPerformance_records_clock_reading_witness :
    (computeResult witnessOptionsPerf witnessComputeOk () witnessEntry 1000).2.1.executionTime
      = 1000 ∧
    (computeResult witnessOptionsPerf witnessComputeOk () witnessEntry 1000).2.2 =
      1000 - witnessEntry.executionTime :=
  trackPerformance_records_clock_reading witnessOptionsPerf witnessComputeOk ()
    witnessEntry 1000 rfl 5 rfl

theorem throwing_selector_records_miss_witness :
    (factorySelector (defaultOptions Nat) throwingSelector
      (initialFactoryState Unit Nat) () [Value.vint 3] 0 0).1 = .error () ∧
    (factorySelector (defaultOptions Nat) throwingSelector
      (initialFactoryState Unit Nat) () [Value.vint 3] 0 0).2.totalMisses =
      (initialFactoryState Unit Nat).totalMisses + 1 := by
  have h := throwing_selector_records_miss (defaultOptions Nat) throwingSelector
    (initialFactoryState Unit Nat) (WF_initial Unit Nat) (by decide) ()
    [Value.vint 3] 0 0 () rfl rfl
  exact ⟨h.1, h.2.1⟩
